import Mathlib

/-!
Verification of the `biocomputation` genetic-algorithm engine.

The Rust sources are embedded shallowly:

* `HashMap<usize, char>` (a `Rule`'s constraint map) is embedded as an
  association list `List (Nat × Char)` whose list order stands for the
  map's (unspecified) iteration order.  Map equality is extensional
  equality of lookups.
* `HashSet` collections (a `Candidate`'s rules, a `Population`'s
  candidates) are embedded as duplicate-free lists, again with list order
  standing for iteration order; membership and insertion are up to the
  structural equality of the element type.
* The `rand` crate's thread RNG is embedded as a stream of naturals plus
  a cursor; `gen_range`/`gen_ratio` consume one stream value each.
  `gen_range(lo, hi)` panics on an empty range, which the embedding
  renders as `Option`/an explicit `panicked` error.
* Rust `usize` arithmetic that can wrap is computed modulo `2 ^ 64`;
  fallible or panicking code returns `Except`/`Option`.
* Bounded `loop`/`while` constructs are embedded with explicit fuel that
  dominates the bound enforced by the source's retry caps.
-/

namespace Biocomputation

/-- Stream-based model of `rand::thread_rng()`: an infinite stream of
naturals and a cursor.  Each primitive draw consumes one stream value. -/
structure Rng where
  stream : Nat → Nat
  idx : Nat

/-- Consume one value from the random stream. -/
def Rng.draw (r : Rng) : Nat × Rng :=
  (r.stream r.idx, ⟨r.stream, r.idx + 1⟩)

/-- Model of `Rng::gen_range(lo, hi)`: a value in `[lo, hi)`.
The `rand` crate panics when the range is empty, rendered as `none`. -/
def genRange (lo hi : Nat) (r : Rng) : Option (Nat × Rng) :=
  if lo < hi then
    let (v, r1) := r.draw
    some (lo + v % (hi - lo), r1)
  else
    none

/-- Model of `Rng::gen_ratio(n, d)`: a Bernoulli draw that succeeds with
probability `n / d`, decided by one stream value. -/
def genRatio (n d : Nat) (r : Rng) : Bool × Rng :=
  let (v, r1) := r.draw
  (decide (v % d < n), r1)

/-- `rule.rs`: `RuleEvaluationError` (the only rule-evaluation error). -/
inductive RuleEvaluationError where
  | indexOutOfRange
deriving DecidableEq, Repr

/-- A `Rule`'s constraint map `HashMap<usize, char>`, embedded as an
association list in the map's iteration order. -/
abbrev Rule := List (Nat × Char)

/-- `Rule::evaluate` (`rule.rs`): walk the constraints in iteration
order; `input.chars().nth(index)` out of range raises
`IndexOutOfRange` via `?`, a mismatching symbol returns `Ok(false)`
immediately, and exhausting the constraints returns `Ok(true)`. -/
def Rule.evaluate : Rule → List Char → Except RuleEvaluationError Bool
  | [], _ => .ok true
  | (index, character) :: rest, input =>
    match input[index]? with
    | none => .error .indexOutOfRange
    | some c => if c ≠ character then .ok false else Rule.evaluate rest input

/-- Boolean satisfaction of all of a rule's constraints by an input:
used to state what `Rule::evaluate` computes. -/
def Rule.sat (r : Rule) (input : List Char) : Bool :=
  r.all fun p => input[p.1]? == some p.2

section RuleEvaluate

theorem Rule.evaluate_ok_true_iff (r : Rule) (input : List Char) :
    Rule.evaluate r input = .ok true ↔ ∀ p ∈ r, input[p.1]? = some p.2 := by
  induction r with
  | nil => simp [Rule.evaluate]
  | cons hd tl ih =>
    obtain ⟨index, character⟩ := hd
    cases hc : input[index]? with
    | none =>
      have heval : Rule.evaluate ((index, character) :: tl) input =
          .error .indexOutOfRange := by
        simp [Rule.evaluate, hc]
      rw [heval]
      constructor
      · intro h; cases h
      · intro h
        have hh : input[index]? = some character :=
          h (index, character) (List.mem_cons_self _ _)
        rw [hc] at hh; cases hh
    | some c =>
      by_cases hne : c = character
      · subst hne
        have heval : Rule.evaluate ((index, c) :: tl) input =
            Rule.evaluate tl input := by
          simp [Rule.evaluate, hc]
        rw [heval, ih]
        constructor
        · intro h p hp
          rcases List.mem_cons.mp hp with rfl | hmem
          · exact hc
          · exact h p hmem
        · intro h p hp
          exact h p (List.mem_cons_of_mem _ hp)
      · have heval : Rule.evaluate ((index, character) :: tl) input = .ok false := by
          simp [Rule.evaluate, hc, hne]
        rw [heval]
        constructor
        · intro h; cases h
        · intro h
          have hh : input[index]? = some character :=
            h (index, character) (List.mem_cons_self _ _)
          rw [hc] at hh
          exact absurd (Option.some.inj hh) hne

theorem Rule.evaluate_of_in_range (r : Rule) (input : List Char)
    (h : ∀ p ∈ r, p.1 < input.length) :
    Rule.evaluate r input = .ok (Rule.sat r input) := by
  induction r with
  | nil => simp [Rule.evaluate, Rule.sat]
  | cons hd tl ih =>
    obtain ⟨index, character⟩ := hd
    have hidx : index < input.length := h (index, character) (List.mem_cons_self _ _)
    obtain ⟨c, hc⟩ : ∃ c, input[index]? = some c := by
      cases hget : input[index]? with
      | none =>
        rw [List.getElem?_eq_none_iff] at hget
        omega
      | some c => exact ⟨c, rfl⟩
    have hrest := ih (fun p hp => h p (List.mem_cons_of_mem _ hp))
    by_cases hne : c = character
    · subst hne
      have hsat : Rule.sat ((index, c) :: tl) input = Rule.sat tl input := by
        simp [Rule.sat, hc]
      rw [hsat]
      simp [Rule.evaluate, hc, hrest]
    · have hsat : Rule.sat ((index, character) :: tl) input = false := by
        simp [Rule.sat, hc, hne]
      rw [hsat]
      simp [Rule.evaluate, hc, hne]

theorem Rule.evaluate_error_iff (r : Rule) (input : List Char) :
    Rule.evaluate r input = .error .indexOutOfRange ↔
      ∃ l p t, r = l ++ p :: t ∧ input.length ≤ p.1 ∧
        ∀ q ∈ l, input[q.1]? = some q.2 := by
  induction r with
  | nil =>
    simp only [Rule.evaluate]
    constructor
    · intro h; cases h
    · rintro ⟨l, p, t, hsplit, -, -⟩
      exact absurd hsplit (by simp)
  | cons hd tl ih =>
    obtain ⟨index, character⟩ := hd
    cases hc : input[index]? with
    | none =>
      have hlen : input.length ≤ index := by
        by_contra hlt
        push_neg at hlt
        rw [List.getElem?_eq_none_iff] at hc
        omega
      have heval : Rule.evaluate ((index, character) :: tl) input =
          .error .indexOutOfRange := by
        simp [Rule.evaluate, hc]
      rw [heval]
      constructor
      · intro _
        exact ⟨[], (index, character), tl, rfl, hlen, by simp⟩
      · intro _; rfl
    | some c =>
      have hidx : index < input.length := by
        by_contra hge
        push_neg at hge
        have hnone : input[index]? = none := List.getElem?_eq_none_iff.mpr hge
        rw [hc] at hnone; cases hnone
      by_cases hne : c = character
      · subst hne
        have heval : Rule.evaluate ((index, c) :: tl) input =
            Rule.evaluate tl input := by
          simp [Rule.evaluate, hc]
        rw [heval, ih]
        constructor
        · rintro ⟨l, p, t, rfl, hp, hall⟩
          refine ⟨(index, c) :: l, p, t, rfl, hp, ?_⟩
          intro q hq
          rcases List.mem_cons.mp hq with rfl | hmem
          · exact hc
          · exact hall q hmem
        · rintro ⟨l, p, t, hsplit, hp, hall⟩
          cases l with
          | nil =>
            rw [List.nil_append] at hsplit
            injection hsplit with h1 h2
            have hp1 : input.length ≤ index := by rw [← h1] at hp; exact hp
            omega
          | cons q l2 =>
            rw [List.cons_append] at hsplit
            injection hsplit with h1 h2
            exact ⟨l2, p, t, h2, hp, fun x hx => hall x (h1 ▸ List.mem_cons_of_mem q hx)⟩
      · have heval : Rule.evaluate ((index, character) :: tl) input = .ok false := by
          simp [Rule.evaluate, hc, hne]
        rw [heval]
        constructor
        · intro h; cases h
        · rintro ⟨l, p, t, hsplit, hp, hall⟩
          cases l with
          | nil =>
            rw [List.nil_append] at hsplit
            injection hsplit with h1 h2
            have hp1 : input.length ≤ index := by rw [← h1] at hp; exact hp
            omega
          | cons q l2 =>
            rw [List.cons_append] at hsplit
            injection hsplit with h1 h2
            have hq : input[index]? = some character := by
              have hh := hall q (List.mem_cons_self _ _)
              rw [← h1] at hh
              exact hh
            rw [hc] at hq
            exact absurd (Option.some.inj hq) hne

end RuleEvaluate

/-- C1, counterexample.  The claim asserts `Rule::evaluate` fails with
`IndexOutOfRange` whenever ANY constrained position is `≥ |E|`,
regardless of which constraint is examined first.  For the rule
`{0 ↦ '1', 5 ↦ '0'}` iterated in that order against the width-1 example
`"0"`, position 5 is out of range yet evaluation returns `Ok(false)`:
the in-range mismatch at position 0 short-circuits first. -/
theorem c1_counterexample :
    Rule.evaluate [(0, '1'), (5, '0')] ['0'] = .ok false ∧ ¬ (5 < 1) := by
  constructor
  · rfl
  · decide

/-- C1, amended.  `Rule::evaluate` returns `Ok(true)` iff every
constrained position is in range and holds the example's symbol; when
every constrained position is in range it returns `Ok` of the
conjunction of the constraint checks (so `Ok(false)` exactly when some
in-range constraint disagrees, and it never errors); it returns
`Err(IndexOutOfRange)` iff, in constraint-iteration order, an
out-of-range position occurs before any deciding (mismatching)
constraint — not unconditionally whenever some position is out of
range; and the empty constraint set always evaluates to `Ok(true)`. -/
theorem c1_rule_evaluate (r : Rule) (input : List Char) :
    (Rule.evaluate r input = .ok true ↔ ∀ p ∈ r, input[p.1]? = some p.2) ∧
    ((∀ p ∈ r, p.1 < input.length) →
      Rule.evaluate r input = .ok (Rule.sat r input)) ∧
    (Rule.evaluate r input = .error .indexOutOfRange ↔
      ∃ l p t, r = l ++ p :: t ∧ input.length ≤ p.1 ∧
        ∀ q ∈ l, input[q.1]? = some q.2) ∧
    Rule.evaluate [] input = .ok true :=
  ⟨Rule.evaluate_ok_true_iff r input,
   Rule.evaluate_of_in_range r input,
   Rule.evaluate_error_iff r input,
   rfl⟩

/-- C1 witness: the amended theorem applied at a concrete rule and
example. -/
theorem c1_witness :
    Rule.evaluate [(0, '1')] ['1'] = .ok (Rule.sat [(0, '1')] ['1']) :=
  (c1_rule_evaluate [(0, '1')] ['1']).2.1 (by decide)

/-- Modelled from the spec: a labeled example is "a fixed-width symbol
string plus a one-character binary label".  `dataset.rs` in the snapshot
stops right after `pub struct DataSet(Vec<DataItem>)`, so the
`DataItem::output` accessor used by `Candidate::calculate_fitness` (and
the `DataSet` accessors) are absent from the sources; `input` models
`DataItem::as_str` and `output` models `DataItem::output`. -/
structure DataItem where
  input : List Char
  output : String
deriving DecidableEq, Repr

/-- A `Candidate`'s `HashSet<Rule>`, embedded as a list in iteration
order.  The `mutation_count` and `birth_generation_id` bookkeeping
fields are omitted: `Candidate` equality and hashing ignore them. -/
abbrev Candidate := List Rule

/-- Inner `for rule in &self.rules` loop of `Candidate::calculate_fitness`
(`candidate.rs`): the example counts as soon as some rule's boolean
evaluation, mapped to `"1"`/`"0"`, equals the example's label; errors
propagate via `?`. -/
def Candidate.classify_item (rules : Candidate) (item : DataItem) :
    Except RuleEvaluationError Bool :=
  match rules with
  | [] => .ok false
  | r :: rest =>
    match Rule.evaluate r item.input with
    | .error e => .error e
    | .ok b =>
      if (if b then "1" else "0") = item.output then .ok true
      else Candidate.classify_item rest item

/-- `Candidate::calculate_fitness` (`candidate.rs`): count of examples
classified correctly by some rule. -/
def Candidate.calculate_fitness (rules : Candidate) :
    List DataItem → Except RuleEvaluationError Nat
  | [] => .ok 0
  | item :: rest =>
    match Candidate.classify_item rules item with
    | .error e => .error e
    | .ok hit =>
      match Candidate.calculate_fitness rules rest with
      | .error e => .error e
      | .ok f => .ok ((if hit then 1 else 0) + f)

/-- Boolean form of "some rule of the candidate, mapped to `"1"`/`"0"`,
matches the example's label": used to state what the fitness loop
counts. -/
def Candidate.matches_label (rules : Candidate) (item : DataItem) : Bool :=
  rules.any fun r => (if Rule.sat r item.input then "1" else "0") == item.output

section CandidateFitnessLemmas

theorem Candidate.classify_item_of_in_range (rules : Candidate) (item : DataItem)
    (h : ∀ r ∈ rules, ∀ p ∈ r, p.1 < item.input.length) :
    Candidate.classify_item rules item = .ok (Candidate.matches_label rules item) := by
  induction rules with
  | nil => simp [Candidate.classify_item, Candidate.matches_label]
  | cons r rest ih =>
    have hr := Rule.evaluate_of_in_range r item.input
      (h r (List.mem_cons_self _ _))
    have hrest := ih (fun q hq => h q (List.mem_cons_of_mem _ hq))
    by_cases hlab : (if Rule.sat r item.input then "1" else "0") = item.output
    · have hmat : Candidate.matches_label (r :: rest) item = true := by
        simp only [Candidate.matches_label, List.any_cons]
        rw [Bool.or_eq_true]
        exact Or.inl (by simpa using hlab)
      rw [hmat]
      simp [Candidate.classify_item, hr, hlab]
    · have hmat : Candidate.matches_label (r :: rest) item =
          Candidate.matches_label rest item := by
        simp only [Candidate.matches_label, List.any_cons]
        have : ((if Rule.sat r item.input then "1" else "0") == item.output) = false := by
          simpa using hlab
        rw [this, Bool.false_or]
      rw [hmat]
      simp [Candidate.classify_item, hr, hlab, hrest]

theorem Candidate.calculate_fitness_of_in_range (rules : Candidate)
    (ds : List DataItem)
    (h : ∀ item ∈ ds, ∀ r ∈ rules, ∀ p ∈ r, p.1 < item.input.length) :
    Candidate.calculate_fitness rules ds =
      .ok (ds.countP (fun item => Candidate.matches_label rules item)) := by
  induction ds with
  | nil => simp [Candidate.calculate_fitness]
  | cons item rest ih =>
    have hitem := Candidate.classify_item_of_in_range rules item
      (h item (List.mem_cons_self _ _))
    have hrest := ih (fun x hx => h x (List.mem_cons_of_mem _ hx))
    simp only [Candidate.calculate_fitness, hitem, hrest, List.countP_cons]
    cases hm : Candidate.matches_label rules item <;> simp [hm, Nat.add_comm]

end CandidateFitnessLemmas

/-- C2.  On an example list where no rule evaluation errors (every
constrained position of every rule is within every example's width),
`Candidate::calculate_fitness` returns exactly the count of examples for
which some rule's boolean evaluation, mapped to `"1"`/`"0"`, equals the
example's label; each example contributes at most once (it is a count of
examples, not of matching rules), the result is `≤ |D|`, and it equals
`|D|` iff every example is matched by some rule with the correct
label. -/
theorem c2_calculate_fitness (rules : Candidate) (ds : List DataItem)
    (h : ∀ item ∈ ds, ∀ r ∈ rules, ∀ p ∈ r, p.1 < item.input.length) :
    Candidate.calculate_fitness rules ds =
        .ok (ds.countP (fun item => Candidate.matches_label rules item)) ∧
      ds.countP (fun item => Candidate.matches_label rules item) ≤ ds.length ∧
      (ds.countP (fun item => Candidate.matches_label rules item) = ds.length ↔
        ∀ item ∈ ds, Candidate.matches_label rules item = true) := by
  exact ⟨Candidate.calculate_fitness_of_in_range rules ds h,
    List.countP_le_length _, List.countP_eq_length⟩

/-- C2 witness: the theorem applied at a concrete candidate and example
list (one rule matching the single labeled example). -/
theorem c2_witness :
    Candidate.calculate_fitness [[(0, '1')]] [⟨['1'], "1"⟩] = .ok 1 := by
  have := (c2_calculate_fitness [[(0, '1')]] [⟨['1'], "1"⟩] (by decide)).1
  simpa using this

/-- Key order on constraint entries used by `Rule::to_string`'s
`entries.sort_by_key(|(&index, _)| index)` (`rule.rs`). -/
def Rule.entryLE (p q : Nat × Char) : Prop := p.1 ≤ q.1

instance : DecidableRel Rule.entryLE := fun p q => Nat.decLe p.1 q.1

instance : IsTotal (Nat × Char) Rule.entryLE := ⟨fun a b => Nat.le_total a.1 b.1⟩

instance : IsTrans (Nat × Char) Rule.entryLE := ⟨fun _ _ _ => Nat.le_trans⟩

/-- Strict key order, satisfied by the sorted entry list whenever the
constraint keys are distinct (as they are in a `HashMap`). -/
def Rule.entryLT (p q : Nat × Char) : Prop := p.1 < q.1

instance : IsAntisymm (Nat × Char) Rule.entryLT :=
  ⟨fun a b h1 h2 => absurd (Nat.lt_trans h1 h2) (Nat.lt_irrefl _)⟩

/-- Sorting step of `Rule::to_string`: a stable sort of the entries by
key (`sort_by_key`). -/
def Rule.sort_entries (r : Rule) : Rule := List.insertionSort Rule.entryLE r

/-- Emission loop of `Rule::to_string`: for each sorted entry, pad with
the placeholder `'_'` while `index > output.len()`, then push the
symbol. -/
def Rule.canonAux : List Char → Rule → List Char
  | output, [] => output
  | output, (index, character) :: rest =>
    Rule.canonAux (output ++ List.replicate (index - output.length) '_' ++ [character]) rest

/-- `Rule::to_string` / `Debug for Rule` (`rule.rs`): canonical string
form; constrained positions in ascending order, gaps filled with
`'_'`. -/
def Rule.to_string (r : Rule) : List Char := Rule.canonAux [] (Rule.sort_entries r)

/-- `impl Hash for Rule` (`rule.rs`) hashes the `Debug` rendering, which
is exactly `to_string`; the byte stream fed to the hasher is modelled by
that string, so two rules hash identically iff these inputs are
equal. -/
def Rule.hash_input (r : Rule) : List Char := Rule.to_string r

/-- `HashMap::get` on a rule's constraint map. -/
def Rule.get : Rule → Nat → Option Char
  | [], _ => none
  | (index, character) :: rest, k =>
    if index = k then some character else Rule.get rest k

/-- Derived `PartialEq`/`Eq` on `Rule` compares the `HashMap`s, i.e. the
maps extensionally: same keys, same values. -/
def Rule.mapEq (a b : Rule) : Prop := ∀ k, Rule.get a k = Rule.get b k

section RuleCanonical

theorem Rule.get_eq_none_iff (r : Rule) (k : Nat) :
    Rule.get r k = none ↔ k ∉ r.map Prod.fst := by
  induction r with
  | nil => simp [Rule.get]
  | cons hd tl ih =>
    obtain ⟨index, character⟩ := hd
    by_cases hik : index = k
    · subst hik
      simp [Rule.get]
    · simp [Rule.get, hik, ih, Ne.symm hik]

theorem Rule.get_eq_some_iff (r : Rule) (hnd : (r.map Prod.fst).Nodup)
    (k : Nat) (c : Char) :
    Rule.get r k = some c ↔ (k, c) ∈ r := by
  induction r with
  | nil => simp [Rule.get]
  | cons hd tl ih =>
    obtain ⟨index, character⟩ := hd
    rw [List.map_cons, List.nodup_cons] at hnd
    by_cases hik : index = k
    · subst hik
      simp only [Rule.get, if_pos rfl, List.mem_cons]
      constructor
      · intro h
        exact Or.inl (by rw [Option.some.inj h])
      · rintro (h | h)
        · injection h with h1 h2
          simp [h2]
        · exact absurd (List.mem_map_of_mem Prod.fst h) hnd.1
    · simp only [Rule.get, if_neg hik, List.mem_cons, ih hnd.2]
      constructor
      · exact Or.inr
      · rintro (h | h)
        · exact absurd (congrArg Prod.fst h).symm hik
        · exact h

theorem Rule.get_congr_perm (a b : Rule) (hnd : (a.map Prod.fst).Nodup)
    (hperm : a.Perm b) : Rule.mapEq a b := by
  intro k
  have hndb : (b.map Prod.fst).Nodup := ((hperm.map Prod.fst).nodup_iff).mp hnd
  cases hget : Rule.get a k with
  | none =>
    rw [Rule.get_eq_none_iff] at hget
    have : k ∉ b.map Prod.fst := fun h => hget ((hperm.map Prod.fst).mem_iff.mpr h)
    exact ((Rule.get_eq_none_iff b k).mpr this).symm
  | some c =>
    rw [Rule.get_eq_some_iff a hnd] at hget
    exact ((Rule.get_eq_some_iff b hndb k c).mpr (hperm.mem_iff.mp hget)).symm

theorem Rule.sort_entries_perm (r : Rule) : (Rule.sort_entries r).Perm r :=
  List.perm_insertionSort Rule.entryLE r

theorem Rule.sort_entries_strict (r : Rule) (hnd : (r.map Prod.fst).Nodup) :
    (Rule.sort_entries r).Pairwise Rule.entryLT := by
  have hsort : (Rule.sort_entries r).Pairwise Rule.entryLE :=
    List.sorted_insertionSort Rule.entryLE r
  have hnds : ((Rule.sort_entries r).map Prod.fst).Nodup :=
    (((Rule.sort_entries_perm r).map Prod.fst).nodup_iff).mpr hnd
  have hpne : (Rule.sort_entries r).Pairwise fun p q : Nat × Char => p.1 ≠ q.1 :=
    List.pairwise_map.mp hnds
  exact (hsort.and hpne).imp fun h => Nat.lt_of_le_of_ne h.1 h.2

theorem Rule.canonAux_get_low (output : List Char) (s : Rule) (k : Nat)
    (hk : k < output.length) :
    (Rule.canonAux output s)[k]? = output[k]? := by
  induction s generalizing output with
  | nil => rfl
  | cons hd tl ih =>
    obtain ⟨index, character⟩ := hd
    have hstep : Rule.canonAux output ((index, character) :: tl) =
        Rule.canonAux
          (output ++ List.replicate (index - output.length) '_' ++ [character]) tl := rfl
    have hk2 : k < (output ++ List.replicate (index - output.length) '_').length := by
      simp only [List.length_append]
      omega
    have hk1 : k < (output ++ List.replicate (index - output.length) '_' ++
        [character]).length := by
      simp only [List.length_append, List.length_singleton]
      omega
    rw [hstep, ih _ hk1, List.getElem?_append_left hk2, List.getElem?_append_left hk]

theorem Rule.canonAux_get_mem (s : Rule) (output : List Char) (k : Nat) (c : Char)
    (hsorted : s.Pairwise Rule.entryLT) (hge : ∀ p ∈ s, output.length ≤ p.1)
    (hmem : (k, c) ∈ s) :
    (Rule.canonAux output s)[k]? = some c := by
  induction s generalizing output with
  | nil => cases hmem
  | cons hd tl ih =>
    obtain ⟨index, character⟩ := hd
    have hle : output.length ≤ index := hge (index, character) (List.mem_cons_self _ _)
    have hlen2 : (output ++ List.replicate (index - output.length) '_').length = index := by
      simp only [List.length_append, List.length_replicate, List.length_singleton]
      omega
    have hlen3 : (output ++ List.replicate (index - output.length) '_' ++
        [character]).length = index + 1 := by
      simp only [List.length_append, List.length_replicate, List.length_singleton]
      omega
    have hstep : Rule.canonAux output ((index, character) :: tl) =
        Rule.canonAux
          (output ++ List.replicate (index - output.length) '_' ++ [character]) tl := rfl
    rcases List.mem_cons.mp hmem with heq | hmemtl
    · injection heq with h1 h2
      subst h1
      subst h2
      rw [hstep, Rule.canonAux_get_low _ _ _ (by rw [hlen3]; omega)]
      rw [List.getElem?_append_right (Nat.le_of_eq hlen2), hlen2]
      simp
    · have hge2 : ∀ p ∈ tl, (output ++ List.replicate (index - output.length) '_' ++
          [character]).length ≤ p.1 := by
        intro p hp
        have := (List.pairwise_cons.mp hsorted).1 p hp
        rw [hlen3]
        exact this
      rw [hstep]
      exact ih _ (List.pairwise_cons.mp hsorted).2 hge2 hmemtl

theorem Rule.canonAux_get_not_mem (s : Rule) (output : List Char) (k : Nat)
    (hsorted : s.Pairwise Rule.entryLT) (hge : ∀ p ∈ s, output.length ≤ p.1)
    (hk : output.length ≤ k) (hnot : k ∉ s.map Prod.fst) :
    (Rule.canonAux output s)[k]? = none ∨ (Rule.canonAux output s)[k]? = some '_' := by
  induction s generalizing output with
  | nil =>
    left
    exact List.getElem?_eq_none_iff.mpr hk
  | cons hd tl ih =>
    obtain ⟨index, character⟩ := hd
    have hle : output.length ≤ index := hge (index, character) (List.mem_cons_self _ _)
    have hki : k ≠ index := by
      intro h
      exact hnot (h ▸ List.mem_cons_self index (tl.map Prod.fst) :
        k ∈ (index :: tl.map Prod.fst))
    have hlen2 : (output ++ List.replicate (index - output.length) '_').length = index := by
      simp only [List.length_append, List.length_replicate, List.length_singleton]
      omega
    have hlen3 : (output ++ List.replicate (index - output.length) '_' ++
        [character]).length = index + 1 := by
      simp only [List.length_append, List.length_replicate, List.length_singleton]
      omega
    have hstep : Rule.canonAux output ((index, character) :: tl) =
        Rule.canonAux
          (output ++ List.replicate (index - output.length) '_' ++ [character]) tl := rfl
    rw [hstep]
    by_cases hlt : k < index
    · right
      rw [Rule.canonAux_get_low _ _ _ (by rw [hlen3]; omega)]
      have hpad : (output ++ List.replicate (index - output.length) '_')[k]? =
          some '_' := by
        rw [List.getElem?_append_right hk]
        have hrep : k - output.length < index - output.length := by omega
        simp [List.getElem?_replicate, hrep]
      rw [List.getElem?_append_left (by rw [hlen2]; omega), hpad]
    · have hge2 : ∀ p ∈ tl, (output ++ List.replicate (index - output.length) '_' ++
          [character]).length ≤ p.1 := by
        intro p hp
        have := (List.pairwise_cons.mp hsorted).1 p hp
        rw [hlen3]
        exact this
      exact ih _ (List.pairwise_cons.mp hsorted).2 hge2 (by rw [hlen3]; omega)
        (fun h => hnot (List.mem_cons_of_mem index h))

theorem Rule.mapEq_trans {a b c : Rule} (h1 : Rule.mapEq a b) (h2 : Rule.mapEq b c) :
    Rule.mapEq a c := fun k => (h1 k).trans (h2 k)

theorem Rule.mapEq_symm {a b : Rule} (h : Rule.mapEq a b) : Rule.mapEq b a :=
  fun k => (h k).symm

theorem Rule.to_string_eq_iff (a b : Rule)
    (hnda : (a.map Prod.fst).Nodup) (hndb : (b.map Prod.fst).Nodup)
    (hva : ∀ p ∈ a, p.2 ≠ '_') (hvb : ∀ p ∈ b, p.2 ≠ '_') :
    Rule.mapEq a b ↔ Rule.to_string a = Rule.to_string b := by
  have hpa := Rule.sort_entries_perm a
  have hpb := Rule.sort_entries_perm b
  have hnsa : ((Rule.sort_entries a).map Prod.fst).Nodup :=
    ((hpa.map Prod.fst).nodup_iff).mpr hnda
  have hnsb : ((Rule.sort_entries b).map Prod.fst).Nodup :=
    ((hpb.map Prod.fst).nodup_iff).mpr hndb
  have hsa := Rule.sort_entries_strict a hnda
  have hsb := Rule.sort_entries_strict b hndb
  have hza : ∀ p ∈ Rule.sort_entries a, ([] : List Char).length ≤ p.1 := by
    intro p _; simp
  have hzb : ∀ p ∈ Rule.sort_entries b, ([] : List Char).length ≤ p.1 := by
    intro p _; simp
  constructor
  · intro hmeq
    have hmsa : Rule.mapEq (Rule.sort_entries a) a := Rule.get_congr_perm _ _ hnsa hpa
    have hmsb : Rule.mapEq b (Rule.sort_entries b) :=
      Rule.mapEq_symm (Rule.get_congr_perm _ _ hnsb hpb)
    have hm : Rule.mapEq (Rule.sort_entries a) (Rule.sort_entries b) :=
      Rule.mapEq_trans (Rule.mapEq_trans hmsa hmeq) hmsb
    have hmemiff : ∀ x : Nat × Char, x ∈ Rule.sort_entries a ↔ x ∈ Rule.sort_entries b := by
      rintro ⟨k, c⟩
      rw [← Rule.get_eq_some_iff _ hnsa, ← Rule.get_eq_some_iff _ hnsb, hm k]
    have hperm : (Rule.sort_entries a).Perm (Rule.sort_entries b) :=
      List.perm_of_nodup_nodup_toFinset_eq hnsa.of_map hnsb.of_map
        (Finset.ext fun x => by
          rw [List.mem_toFinset, List.mem_toFinset]
          exact hmemiff x)
    have heq : Rule.sort_entries a = Rule.sort_entries b :=
      List.eq_of_perm_of_sorted hperm hsa hsb
    unfold Rule.to_string
    rw [heq]
  · intro hstr k
    cases hga : Rule.get a k with
    | some c =>
      have hmema : (k, c) ∈ Rule.sort_entries a :=
        hpa.mem_iff.mpr ((Rule.get_eq_some_iff a hnda k c).mp hga)
      have hcs : (Rule.to_string a)[k]? = some c :=
        Rule.canonAux_get_mem _ _ _ _ hsa hza hmema
      rw [hstr] at hcs
      cases hgb : Rule.get b k with
      | some d =>
        have hmemb : (k, d) ∈ Rule.sort_entries b :=
          hpb.mem_iff.mpr ((Rule.get_eq_some_iff b hndb k d).mp hgb)
        have hds : (Rule.to_string b)[k]? = some d :=
          Rule.canonAux_get_mem _ _ _ _ hsb hzb hmemb
        rw [hcs] at hds
        rw [Option.some.inj hds]
      | none =>
        have hnotb : k ∉ (Rule.sort_entries b).map Prod.fst := by
          intro h
          exact absurd ((hpb.map Prod.fst).mem_iff.mp h)
            ((Rule.get_eq_none_iff b k).mp hgb)
        have := Rule.canonAux_get_not_mem _ _ _ hsb hzb (by simp) hnotb
        rcases this with hnone | hplace
        · have hn2 : (Rule.to_string b)[k]? = none := hnone
          rw [hcs] at hn2; cases hn2
        · have hp2 : (Rule.to_string b)[k]? = some '_' := hplace
          rw [hcs] at hp2
          have : c = '_' := Option.some.inj hp2
          have hcval : c ≠ '_' :=
            hva (k, c) (hpa.mem_iff.mp hmema)
          exact absurd this hcval
    | none =>
      cases hgb : Rule.get b k with
      | some d =>
        have hmemb : (k, d) ∈ Rule.sort_entries b :=
          hpb.mem_iff.mpr ((Rule.get_eq_some_iff b hndb k d).mp hgb)
        have hds : (Rule.to_string b)[k]? = some d :=
          Rule.canonAux_get_mem _ _ _ _ hsb hzb hmemb
        rw [← hstr] at hds
        have hnota : k ∉ (Rule.sort_entries a).map Prod.fst := by
          intro h
          exact absurd ((hpa.map Prod.fst).mem_iff.mp h)
            ((Rule.get_eq_none_iff a k).mp hga)
        have := Rule.canonAux_get_not_mem _ _ _ hsa hza (by simp) hnota
        rcases this with hnone | hplace
        · have hn2 : (Rule.to_string a)[k]? = none := hnone
          rw [hds] at hn2; cases hn2
        · have hp2 : (Rule.to_string a)[k]? = some '_' := hplace
          rw [hds] at hp2
          have : d = '_' := Option.some.inj hp2
          have hdval : d ≠ '_' :=
            hvb (k, d) (hpb.mem_iff.mp hmemb)
          exact absurd this hdval
      | none => rfl

end RuleCanonical

/-- C6.  For rules with distinct constraint keys and symbols drawn from
the alphabet (in particular never the placeholder `'_'`): structural
equality (extensional `HashMap` equality, the derived `Eq` on `Rule`)
coincides with equality of the canonical string forms produced by
`Rule::to_string`; and any two rules built from the same set of
position-to-symbol pairs in any insertion order are structurally equal
and feed the identical byte stream to the hasher (`impl Hash for Rule`
hashes exactly the canonical string), so `HashSet<Rule>` deduplicates by
this structural equality. -/
theorem c6_rule_equality (a b : Rule)
    (hnda : (a.map Prod.fst).Nodup) (hndb : (b.map Prod.fst).Nodup)
    (hva : ∀ p ∈ a, p.2 ≠ '_') (hvb : ∀ p ∈ b, p.2 ≠ '_') :
    (Rule.mapEq a b ↔ Rule.to_string a = Rule.to_string b) ∧
    (a.Perm b → Rule.mapEq a b ∧ Rule.hash_input a = Rule.hash_input b) := by
  refine ⟨Rule.to_string_eq_iff a b hnda hndb hva hvb, fun hperm => ?_⟩
  have hmeq : Rule.mapEq a b := Rule.get_congr_perm a b hnda hperm
  exact ⟨hmeq, (Rule.to_string_eq_iff a b hnda hndb hva hvb).mp hmeq⟩

/-- C6 witness: two insertion orders of the same two constraints are
structurally equal and have equal canonical strings / hash inputs. -/
theorem c6_witness :
    Rule.mapEq [(0, '1'), (2, '0')] [(2, '0'), (0, '1')] ∧
      Rule.hash_input [(0, '1'), (2, '0')] = Rule.hash_input [(2, '0'), (0, '1')] :=
  (c6_rule_equality [(0, '1'), (2, '0')] [(2, '0'), (0, '1')]
      (by decide) (by decide) (by decide) (by decide)).2 (by decide)

/-- `CandidateFitness` (`candidate.rs`): a candidate paired with its
computed fitness value. -/
structure CandidateFitness where
  candidate : Candidate
  fitness : Nat
deriving DecidableEq, Repr

/-- Entry-building pass of `Population::calculate_fitness`
(`population.rs`): one `CandidateFitness` per member, in iteration
order, with `FitnessCalculationError` (a transparent wrapper around
`RuleEvaluationError`) propagated via `?`. -/
def Population.fitness_entries (ds : List DataItem) :
    List Candidate → Except RuleEvaluationError (List CandidateFitness)
  | [] => .ok []
  | c :: rest =>
    match Candidate.calculate_fitness c ds with
    | .error e => .error e
    | .ok f =>
      match Population.fitness_entries ds rest with
      | .error e => .error e
      | .ok l => .ok (⟨c, f⟩ :: l)

/-- Key comparison of `fitness_values.sort_by_key(|cf| cf.fitness)`. -/
def CandidateFitness.le (x y : CandidateFitness) : Prop := x.fitness ≤ y.fitness

instance : DecidableRel CandidateFitness.le :=
  fun x y => Nat.decLe x.fitness y.fitness

instance : IsTotal CandidateFitness CandidateFitness.le :=
  ⟨fun a b => Nat.le_total a.fitness b.fitness⟩

instance : IsTrans CandidateFitness CandidateFitness.le :=
  ⟨fun _ _ _ => Nat.le_trans⟩

/-- `Population::calculate_fitness` (`population.rs`): build the entry
list, then `sort_by_key` ascending by fitness (a stable sort, embedded
as a stable insertion sort). -/
def Population.calculate_fitness (cands : List Candidate) (ds : List DataItem) :
    Except RuleEvaluationError (List CandidateFitness) :=
  match Population.fitness_entries ds cands with
  | .error e => .error e
  | .ok l => .ok (List.insertionSort CandidateFitness.le l)

theorem Population.fitness_entries_of_in_range (ds : List DataItem)
    (cands : List Candidate)
    (h : ∀ c ∈ cands, ∀ item ∈ ds, ∀ r ∈ c, ∀ p ∈ r, p.1 < item.input.length) :
    Population.fitness_entries ds cands =
      .ok (cands.map fun c =>
        ⟨c, ds.countP fun item => Candidate.matches_label c item⟩) := by
  induction cands with
  | nil => rfl
  | cons c rest ih =>
    have hc := Candidate.calculate_fitness_of_in_range c ds
      (fun item hitem r hr => h c (List.mem_cons_self _ _) item hitem r hr)
    have hrest := ih (fun x hx => h x (List.mem_cons_of_mem _ hx))
    simp [Population.fitness_entries, hc, hrest]

/-- C8.  On an example set where no rule evaluation errors,
`Population::calculate_fitness` returns one `(candidate, fitness)` entry
per member (a permutation of the member-wise fitness map, so in
particular of the same length as the population), and the returned list
is sorted ascending by fitness: every adjacent pair of entries has the
earlier fitness `≤` the later fitness. -/
theorem c8_population_fitness (cands : List Candidate) (ds : List DataItem)
    (h : ∀ c ∈ cands, ∀ item ∈ ds, ∀ r ∈ c, ∀ p ∈ r, p.1 < item.input.length) :
    ∃ l, Population.calculate_fitness cands ds = .ok l ∧
      l.length = cands.length ∧
      l.Perm (cands.map fun c =>
        ⟨c, ds.countP fun item => Candidate.matches_label c item⟩) ∧
      ∀ i : Nat, ∀ hi : i + 1 < l.length,
        (l.get ⟨i, Nat.lt_of_succ_lt hi⟩).fitness ≤ (l.get ⟨i + 1, hi⟩).fitness := by
  have hentries := Population.fitness_entries_of_in_range ds cands h
  refine ⟨List.insertionSort CandidateFitness.le
      (cands.map fun c =>
        ⟨c, ds.countP fun item => Candidate.matches_label c item⟩), ?_, ?_, ?_, ?_⟩
  · simp [Population.calculate_fitness, hentries]
  · exact (List.perm_insertionSort _ _).length_eq.trans (List.length_map _ _)
  · exact List.perm_insertionSort _ _
  · intro i hi
    have hsorted : List.Pairwise CandidateFitness.le
        (List.insertionSort CandidateFitness.le
          (cands.map fun c =>
            ⟨c, ds.countP fun item => Candidate.matches_label c item⟩)) :=
      List.sorted_insertionSort _ _
    exact List.pairwise_iff_get.mp hsorted ⟨i, Nat.lt_of_succ_lt hi⟩ ⟨i + 1, hi⟩
      (Nat.lt_succ_self i)

/-- C8 witness: the theorem applied to a concrete two-member population
over one labeled example. -/
theorem c8_witness :
    ∃ l, Population.calculate_fitness [[[(0, '0')]], [[(0, '1')]]] [⟨['1'], "1"⟩] =
        .ok l ∧
      l.length = 2 ∧
      (∀ i : Nat, ∀ hi : i + 1 < l.length,
        (l.get ⟨i, Nat.lt_of_succ_lt hi⟩).fitness ≤ (l.get ⟨i + 1, hi⟩).fitness) := by
  obtain ⟨l, h1, h2, -, h4⟩ :=
    c8_population_fitness [[[(0, '0')]], [[(0, '1')]]] [⟨['1'], "1"⟩] (by decide)
  exact ⟨l, h1, h2, h4⟩

/-- Boolean form of the derived `PartialEq` on `Rule` (`HashMap`
equality): the two maps agree on every key of either. -/
def Rule.beq (a b : Rule) : Bool :=
  ((a ++ b).map Prod.fst).all fun k => Rule.get a k == Rule.get b k

/-- `Candidate` equality (`candidate.rs`): `self.rules() == rhs.rules()`,
i.e. `HashSet<Rule>` equality — mutual membership up to `Rule`
equality. -/
def Candidate.beq (a b : Candidate) : Bool :=
  (a.all fun r => b.any fun s => Rule.beq r s) &&
  (b.all fun r => a.any fun s => Rule.beq r s)

/-- Derived `PartialEq` on `CandidateFitness` (`candidate.rs`): both the
candidate and the fitness fields are equal. -/
def CandidateFitness.beq (x y : CandidateFitness) : Bool :=
  Candidate.beq x.candidate y.candidate && x.fitness == y.fitness

section StructuralEquality

theorem Rule.beq_iff_mapEq (a b : Rule) : Rule.beq a b = true ↔ Rule.mapEq a b := by
  constructor
  · intro h k
    rw [Rule.beq, List.all_eq_true] at h
    by_cases hmem : k ∈ (a ++ b).map Prod.fst
    · exact beq_iff_eq.mp (h k hmem)
    · rw [List.map_append, List.mem_append] at hmem
      push_neg at hmem
      rw [(Rule.get_eq_none_iff a k).mpr hmem.1, (Rule.get_eq_none_iff b k).mpr hmem.2]
  · intro h
    rw [Rule.beq, List.all_eq_true]
    intro k _
    exact beq_iff_eq.mpr (h k)

theorem Rule.beq_refl (a : Rule) : Rule.beq a a = true :=
  (Rule.beq_iff_mapEq a a).mpr fun _ => rfl

theorem Rule.beq_symm {a b : Rule} (h : Rule.beq a b = true) : Rule.beq b a = true :=
  (Rule.beq_iff_mapEq b a).mpr (Rule.mapEq_symm ((Rule.beq_iff_mapEq a b).mp h))

theorem Rule.beq_trans {a b c : Rule} (h1 : Rule.beq a b = true)
    (h2 : Rule.beq b c = true) : Rule.beq a c = true :=
  (Rule.beq_iff_mapEq a c).mpr
    (Rule.mapEq_trans ((Rule.beq_iff_mapEq a b).mp h1) ((Rule.beq_iff_mapEq b c).mp h2))

theorem Candidate.beq_iff (a b : Candidate) :
    Candidate.beq a b = true ↔
      (∀ r ∈ a, ∃ s ∈ b, Rule.beq r s = true) ∧
      (∀ r ∈ b, ∃ s ∈ a, Rule.beq r s = true) := by
  rw [Candidate.beq, Bool.and_eq_true, List.all_eq_true, List.all_eq_true]
  constructor
  · intro ⟨h1, h2⟩
    constructor
    · intro r hr
      obtain ⟨s, hs, hbeq⟩ := List.any_eq_true.mp (h1 r hr)
      exact ⟨s, hs, hbeq⟩
    · intro r hr
      obtain ⟨s, hs, hbeq⟩ := List.any_eq_true.mp (h2 r hr)
      exact ⟨s, hs, hbeq⟩
  · intro ⟨h1, h2⟩
    constructor
    · intro r hr
      obtain ⟨s, hs, hbeq⟩ := h1 r hr
      exact List.any_eq_true.mpr ⟨s, hs, hbeq⟩
    · intro r hr
      obtain ⟨s, hs, hbeq⟩ := h2 r hr
      exact List.any_eq_true.mpr ⟨s, hs, hbeq⟩

theorem Candidate.beq_self (a : Candidate) : Candidate.beq a a = true :=
  (Candidate.beq_iff a a).mpr
    ⟨fun r hr => ⟨r, hr, Rule.beq_refl r⟩, fun r hr => ⟨r, hr, Rule.beq_refl r⟩⟩

theorem Candidate.beq_symmetric {a b : Candidate} (h : Candidate.beq a b = true) :
    Candidate.beq b a = true := by
  obtain ⟨h1, h2⟩ := (Candidate.beq_iff a b).mp h
  exact (Candidate.beq_iff b a).mpr ⟨h2, h1⟩

theorem Candidate.beq_transitive {a b c : Candidate} (h1 : Candidate.beq a b = true)
    (h2 : Candidate.beq b c = true) : Candidate.beq a c = true := by
  obtain ⟨h1a, h1b⟩ := (Candidate.beq_iff a b).mp h1
  obtain ⟨h2a, h2b⟩ := (Candidate.beq_iff b c).mp h2
  refine (Candidate.beq_iff a c).mpr ⟨?_, ?_⟩
  · intro r hr
    obtain ⟨s, hs, hrs⟩ := h1a r hr
    obtain ⟨t, ht, hst⟩ := h2a s hs
    exact ⟨t, ht, Rule.beq_trans hrs hst⟩
  · intro r hr
    obtain ⟨s, hs, hrs⟩ := h2b r hr
    obtain ⟨t, ht, hst⟩ := h1b s hs
    exact ⟨t, ht, Rule.beq_trans hrs hst⟩

end StructuralEquality

/-- `SelectionError` (`selection.rs`), extended with two embedding
artifacts: `panicked` renders the `gen_range(0, 0)` panic on a
zero-fitness total, and `outOfFuel` marks exhaustion of the
structural-recursion fuel (the fuel passed by the entry point dominates
the loop's retry bound, so it is unreachable from `select`). -/
inductive SelectionError where
  | emptyCandidates
  | rngFail
  | panicked
  | outOfFuel
deriving DecidableEq, Repr

/-- `DuplicateHandlingStrategy` (`selection.rs`). -/
inductive DuplicateHandlingStrategy where
  | allow
  | disallow (retries : Nat)
deriving DecidableEq, Repr

/-- Retry budget carried by the duplicate-handling policy, used only to
size the embedding's loop fuel. -/
def DuplicateHandlingStrategy.retryBudget : DuplicateHandlingStrategy → Nat
  | .allow => 0
  | .disallow retries => retries

/-- Sum of the candidates' fitness values:
`candidates.iter().map(|candidate| candidate.fitness).sum()`. -/
def totalFitness (cands : List CandidateFitness) : Nat :=
  (cands.map fun c => c.fitness).sum

/-- Inner `for candidate in candidates` scan of
`RouletteSelection::select` (`selection.rs`): add each fitness to the
running `cumulative_total` and stop at the first candidate whose
cumulative sum exceeds the draw, returning it with the updated
accumulator. -/
def RouletteSelection.pick (draw : Nat) :
    List CandidateFitness → Nat → Option (CandidateFitness × Nat)
  | [], _ => none
  | c :: rest, cumulative =>
    if draw < cumulative + c.fitness then some (c, cumulative + c.fitness)
    else RouletteSelection.pick draw rest (cumulative + c.fitness)

/-- Outer `while results.len() < selection_size` loop of
`RouletteSelection::select`: the candidate scan restarts each pass, but
the single draw and the `cumulative_total` accumulator are NOT reset
between passes; duplicates are either pushed (`Allow`) or count toward
the consecutive-failure budget (`Disallow`). -/
def RouletteSelection.loop (cands : List CandidateFitness) (selSize : Nat)
    (dup : DuplicateHandlingStrategy) (draw : Nat) :
    Nat → Nat → Nat → List CandidateFitness →
      Except SelectionError (List CandidateFitness)
  | 0, _, _, _ => .error .outOfFuel
  | fuel + 1, cumulative, failures, results =>
    if results.length < selSize then
      match RouletteSelection.pick draw cands cumulative with
      | none => .error .emptyCandidates
      | some (selected, cumulative2) =>
        match dup, results.any fun r => CandidateFitness.beq r selected with
        | .disallow retries, true =>
          if failures + 1 ≥ retries then .error .rngFail
          else RouletteSelection.loop cands selSize dup draw fuel
            cumulative2 (failures + 1) results
        | _, _ =>
          RouletteSelection.loop cands selSize dup draw fuel
            cumulative2 0 (results ++ [selected])
    else .ok results

/-- `RouletteSelection::select` (`selection.rs`): compute the fitness
total, make ONE `gen_range(0, total)` draw for the whole call (panicking
when the total is zero), then run the pick loop, which re-uses that
single draw and the non-reset accumulator across all passes. -/
def RouletteSelection.select (cands : List CandidateFitness)
    (selSize : Nat) (dup : DuplicateHandlingStrategy) (rng : Rng) :
    Except SelectionError (List CandidateFitness × Rng) :=
  match genRange 0 (totalFitness cands) rng with
  | none => .error .panicked
  | some (draw, rng2) =>
    match RouletteSelection.loop cands selSize dup draw
        ((selSize + 1) * (dup.retryBudget + 1) + 1) 0 0 [] with
    | .error e => .error e
    | .ok results => .ok (results, rng2)

instance : Inhabited CandidateFitness := ⟨⟨[], 0⟩⟩

section RouletteLemmas

theorem RouletteSelection.pick_draw_lt (draw : Nat) (cands : List CandidateFitness)
    (cumulative : Nat) (c : CandidateFitness) (cum2 : Nat)
    (h : RouletteSelection.pick draw cands cumulative = some (c, cum2)) :
    draw < cum2 := by
  induction cands generalizing cumulative with
  | nil => cases h
  | cons hd tl ih =>
    rw [RouletteSelection.pick] at h
    by_cases hlt : draw < cumulative + hd.fitness
    · rw [if_pos hlt] at h
      injection h with h1
      injection h1 with h2 h3
      omega
    · rw [if_neg hlt] at h
      exact ih _ h

theorem RouletteSelection.pick_head (draw : Nat) (hd : CandidateFitness)
    (tl : List CandidateFitness) (cumulative : Nat) (h : draw < cumulative) :
    RouletteSelection.pick draw (hd :: tl) cumulative =
      some (hd, cumulative + hd.fitness) := by
  rw [RouletteSelection.pick, if_pos (by omega)]

theorem RouletteSelection.pick_total (draw : Nat) (cands : List CandidateFitness)
    (cumulative : Nat) (hne : cands ≠ [])
    (h : draw < cumulative + totalFitness cands) :
    ∃ c cum2, RouletteSelection.pick draw cands cumulative = some (c, cum2) := by
  induction cands generalizing cumulative with
  | nil => exact absurd rfl hne
  | cons hd tl ih =>
    rw [RouletteSelection.pick]
    by_cases hlt : draw < cumulative + hd.fitness
    · exact ⟨hd, cumulative + hd.fitness, by rw [if_pos hlt]⟩
    · rw [if_neg hlt]
      cases tl with
      | nil =>
        rw [totalFitness] at h
        simp only [List.map_cons, List.map_nil, List.sum_cons, List.sum_nil] at h
        omega
      | cons hd2 tl2 =>
        refine ih (cumulative + hd.fitness) (by simp) ?_
        rw [totalFitness] at h ⊢
        simp only [List.map_cons, List.sum_cons] at h ⊢
        omega

theorem RouletteSelection.pick_first_exceeding (draw : Nat)
    (cands : List CandidateFitness) (cumulative : Nat) (c : CandidateFitness)
    (cum2 : Nat)
    (h : RouletteSelection.pick draw cands cumulative = some (c, cum2)) :
    ∃ i, ∃ hlt : i < cands.length, c = cands.get ⟨i, hlt⟩ ∧
      cum2 = cumulative + totalFitness (cands.take (i + 1)) ∧
      ∀ j < i, cumulative + totalFitness (cands.take (j + 1)) ≤ draw := by
  induction cands generalizing cumulative with
  | nil => cases h
  | cons hd tl ih =>
    rw [RouletteSelection.pick] at h
    by_cases hlt : draw < cumulative + hd.fitness
    · rw [if_pos hlt] at h
      injection h with h1
      injection h1 with h2 h3
      refine ⟨0, by simp, h2.symm, ?_, by omega⟩
      rw [← h3, totalFitness]
      simp
    · rw [if_neg hlt] at h
      obtain ⟨i, hilt, hc, hcum, hmin⟩ := ih _ h
      refine ⟨i + 1, by simpa using Nat.succ_lt_succ hilt, hc, ?_, ?_⟩
      · rw [hcum, List.take_succ_cons, totalFitness, totalFitness]
        simp only [List.map_cons, List.sum_cons]
        omega
      · intro j hj
        cases j with
        | zero =>
          rw [List.take_succ_cons, List.take_zero, totalFitness]
          simp only [List.map_cons, List.map_nil, List.sum_cons, List.sum_nil]
          omega
        | succ j2 =>
          have := hmin j2 (by omega)
          rw [List.take_succ_cons, totalFitness]
          simp only [List.map_cons, List.sum_cons]
          rw [totalFitness] at this
          omega

theorem RouletteSelection.loop_allow (cands : List CandidateFitness)
    (selSize : Nat) (draw : Nat) (hne : cands ≠ []) :
    ∀ n fuel results cumulative failures, n + 1 ≤ fuel →
      selSize = results.length + n → draw < cumulative →
      RouletteSelection.loop cands selSize .allow draw fuel cumulative failures
          results =
        .ok (results ++ List.replicate n cands.headI) := by
  intro n
  induction n with
  | zero =>
    intro fuel results cumulative failures hfuel hsize hdraw
    cases fuel with
    | zero => omega
    | succ f =>
      rw [RouletteSelection.loop, if_neg (by omega)]
      simp
  | succ n ih =>
    intro fuel results cumulative failures hfuel hsize hdraw
    cases fuel with
    | zero => omega
    | succ f =>
      obtain ⟨hd, tl, rfl⟩ := List.exists_cons_of_ne_nil hne
      rw [RouletteSelection.loop, if_pos (by omega),
        RouletteSelection.pick_head draw hd tl cumulative hdraw]
      have hrec := ih f (results ++ [hd]) (cumulative + hd.fitness) 0
        (by omega) (by simp; omega) (by omega)
      have heq : results ++ [hd] ++ List.replicate n (hd :: tl).headI =
          results ++ List.replicate (n + 1) (hd :: tl).headI := by
        simp [List.replicate_succ]
      exact hrec.trans (congrArg Except.ok heq)

end RouletteLemmas

/-- C7.  With a positive fitness total, `duplicates = Allow` and
`selection_size ≥ 2`, `RouletteSelection::select` draws exactly one
random integer in `[0, total)` for the whole call (the returned RNG has
advanced by exactly one draw), walks the candidate list accumulating a
running fitness sum that is never reset between passes, and each pass
picks the first candidate whose cumulative sum exceeds the draw;
consequently, once the first pick has pushed the accumulator above the
draw, every one of the remaining `selection_size - 1` picks is the first
candidate in list order. -/
theorem c7_roulette_select (cands : List CandidateFitness) (selSize : Nat)
    (rng : Rng) (htotal : 0 < totalFitness cands) (hsize : 2 ≤ selSize) :
    ∃ first cum1 i, ∃ hlt : i < cands.length,
      RouletteSelection.pick (rng.stream rng.idx % totalFitness cands) cands 0 =
        some (first, cum1) ∧
      RouletteSelection.select cands selSize .allow rng =
        .ok (first :: List.replicate (selSize - 1) cands.headI,
          ⟨rng.stream, rng.idx + 1⟩) ∧
      rng.stream rng.idx % totalFitness cands < totalFitness cands ∧
      first = cands.get ⟨i, hlt⟩ ∧
      rng.stream rng.idx % totalFitness cands <
        totalFitness (cands.take (i + 1)) ∧
      (∀ j < i, totalFitness (cands.take (j + 1)) ≤
        rng.stream rng.idx % totalFitness cands) := by
  have hne : cands ≠ [] := by
    intro h
    rw [h, totalFitness] at htotal
    simp at htotal
  have hdrawlt : rng.stream rng.idx % totalFitness cands < totalFitness cands :=
    Nat.mod_lt _ htotal
  obtain ⟨first, cum1, hpick⟩ :=
    RouletteSelection.pick_total (rng.stream rng.idx % totalFitness cands) cands 0
      hne (by omega)
  obtain ⟨i, hilt, hfirst, hcum, hmin⟩ :=
    RouletteSelection.pick_first_exceeding _ cands 0 first cum1 hpick
  have hcumgt : rng.stream rng.idx % totalFitness cands < cum1 :=
    RouletteSelection.pick_draw_lt _ cands 0 first cum1 hpick
  refine ⟨first, cum1, i, hilt, hpick, ?_, hdrawlt, hfirst, by omega, by
    intro j hj
    have := hmin j hj
    omega⟩
  have hgen : genRange 0 (totalFitness cands) rng =
      some (rng.stream rng.idx % totalFitness cands, ⟨rng.stream, rng.idx + 1⟩) := by
    rw [genRange, if_pos htotal]
    simp [Rng.draw]
  have hfuel : (selSize + 1) * (DuplicateHandlingStrategy.retryBudget .allow + 1) + 1 =
      selSize + 2 := by
    rw [DuplicateHandlingStrategy.retryBudget]
    ring
  have hstep : RouletteSelection.loop cands selSize .allow
      (rng.stream rng.idx % totalFitness cands) (selSize + 2) 0 0 [] =
      .ok ([first] ++ List.replicate (selSize - 1) cands.headI) := by
    rw [RouletteSelection.loop, if_pos (by simp; omega), hpick]
    have hloop := RouletteSelection.loop_allow cands selSize
      (rng.stream rng.idx % totalFitness cands) hne (selSize - 1) (selSize + 1)
      [first] cum1 0 (by omega) (by simp; omega) hcumgt
    exact hloop
  simp only [RouletteSelection.select, hgen, hfuel, hstep]
  simp

/-- C7 witness: the theorem applied to a concrete two-candidate list
(fitnesses 1 and 2), `selection_size = 2`, and the all-zero random
stream. -/
theorem c7_witness :
    ∃ first cum1 i,
      ∃ hlt : i < ([⟨[[(0, '0')]], 1⟩, ⟨[[(0, '1')]], 2⟩] :
        List CandidateFitness).length,
      RouletteSelection.pick 0 [⟨[[(0, '0')]], 1⟩, ⟨[[(0, '1')]], 2⟩] 0 =
        some (first, cum1) ∧
      RouletteSelection.select [⟨[[(0, '0')]], 1⟩, ⟨[[(0, '1')]], 2⟩] 2 .allow
          ⟨fun _ => 0, 0⟩ =
        .ok ([first, ([⟨[[(0, '0')]], 1⟩, ⟨[[(0, '1')]], 2⟩] :
          List CandidateFitness).headI], ⟨fun _ => 0, 1⟩) := by
  obtain ⟨first, cum1, i, hlt, h1, h2, -, -, -, -⟩ :=
    c7_roulette_select [⟨[[(0, '0')]], 1⟩, ⟨[[(0, '1')]], 2⟩] 2 ⟨fun _ => 0, 0⟩
      (by decide) (by decide)
  exact ⟨first, cum1, i, hlt, by simpa using h1, by simpa using h2⟩

/-- `MirroringStrategy` (`crossover.rs`). -/
inductive MirroringStrategy where
  | mirrorIfAsexual
  | alwaysMirror
  | never
deriving DecidableEq, Repr

/-- Wrapping `usize` subtraction (Rust release semantics):
`(a - b) mod 2^64`.  The percentage matings compute
`b.rules().len() - split` with a plain `-`, which wraps when the
percentage exceeds 100; iterator `skip`/`take` on the wrapped huge count
then simply produce an empty (resp. full) slice. -/
def usizeSub (a b : Nat) : Nat := (2 ^ 64 + a - b) % 2 ^ 64

/-- `HashSet::extend`/`insert` over a rule collection: append each rule
not already present up to `Rule` equality (`Candidate::from_rules`
collects into a `HashSet<Rule>`). -/
def Candidate.extendRules (acc : Candidate) (rules : List Rule) : Candidate :=
  rules.foldl
    (fun acc2 r => if acc2.any fun s => Rule.beq s r then acc2 else acc2 ++ [r]) acc

/-- `Candidate::from_rules` (`candidate.rs`): a candidate from a rule
collection, deduplicated by `Rule` equality. -/
def Candidate.from_rules (rules : List Rule) : Candidate :=
  Candidate.extendRules [] rules

/-- Split index `((split_at as f64 / 100.0) * len as f64) as usize` of
the percentage matings (`crossover.rs`), modelled with exact rational
arithmetic: the truncation toward zero of `split_at/100 · len` is the
natural-number floor `split_at * len / 100`. -/
def percentageIndex (splitAt len : Nat) : Nat := splitAt * len / 100

/-- One pair's recombination under
`MatingStrategy::SinglePointAtPercentage` (`crossover.rs`): compute the
split indices (parent B's optionally mirrored via the wrapping
subtraction `b.rules().len() - split_at_b_no_mirror`; `MirrorIfAsexual`
mirrors only when `a == b` under the derived `CandidateFitness`
equality), then push `A[..splitA] ++ B[splitB..]` and its complement,
each collected into a rule set. -/
def singlePointAtPercentagePair (splitAt : Nat) (mirroring : MirroringStrategy)
    (a b : CandidateFitness) : List Candidate :=
  let splitA := percentageIndex splitAt a.candidate.length
  let splitBNoMirror := percentageIndex splitAt b.candidate.length
  let splitB :=
    match mirroring with
    | .mirrorIfAsexual =>
      if CandidateFitness.beq a b then usizeSub b.candidate.length splitBNoMirror
      else splitBNoMirror
    | .alwaysMirror => usizeSub b.candidate.length splitBNoMirror
    | .never => splitBNoMirror
  [Candidate.from_rules (a.candidate.take splitA ++ b.candidate.drop splitB),
   Candidate.from_rules (b.candidate.take splitB ++ a.candidate.drop splitA)]

/-- `MatingStrategy::SinglePointAtPercentage` over the whole matchup
sequence: two offspring pushed per pair. -/
def crossover_single_point_at_percentage (splitAt : Nat)
    (mirroring : MirroringStrategy) :
    List (CandidateFitness × CandidateFitness) → List Candidate
  | [] => []
  | (a, b) :: rest =>
    singlePointAtPercentagePair splitAt mirroring a b ++
      crossover_single_point_at_percentage splitAt mirroring rest

/-- One pair's recombination under
`MatingStrategy::MultiPointAtPercentages` (`crossover.rs`): each
`(start, end)` percentage segment contributes `A`'s slice and `B`'s
(optionally mirrored) slice to the two accumulated child rule sets.  The
source shadows `split_at_a_start` before taking the `max`, so the
effective bounds are `(min s e, max (min s e) e)`; the mirrored bounds
and the `end - start` slice lengths use wrapping subtraction. -/
def multiPointAtPercentagesPair (splits : List (Nat × Nat))
    (mirroring : MirroringStrategy) (a b : CandidateFitness) : List Candidate :=
  let children := splits.foldl
    (fun (acc : Candidate × Candidate) seg =>
      let aStart := min (percentageIndex seg.1 a.candidate.length)
        (percentageIndex seg.2 a.candidate.length)
      let aEnd := max aStart (percentageIndex seg.2 a.candidate.length)
      let bStartNM := min (percentageIndex seg.1 b.candidate.length)
        (percentageIndex seg.2 b.candidate.length)
      let bEndNM := max bStartNM (percentageIndex seg.2 b.candidate.length)
      let bBounds :=
        match mirroring with
        | .mirrorIfAsexual =>
          if CandidateFitness.beq a b then
            (usizeSub b.candidate.length bStartNM, usizeSub b.candidate.length bEndNM)
          else (bStartNM, bEndNM)
        | .alwaysMirror =>
          (usizeSub b.candidate.length bStartNM, usizeSub b.candidate.length bEndNM)
        | .never => (bStartNM, bEndNM)
      let aSlice := (a.candidate.drop aStart).take (usizeSub aEnd aStart)
      let bSlice := (b.candidate.drop bBounds.1).take (usizeSub bBounds.2 bBounds.1)
      (Candidate.extendRules acc.1 (aSlice ++ bSlice),
       Candidate.extendRules acc.2 (bSlice ++ aSlice)))
    ([], [])
  [children.1, children.2]

/-- `MatingStrategy::MultiPointAtPercentages` over the whole matchup
sequence: two offspring pushed per pair. -/
def crossover_multi_point_at_percentages (splits : List (Nat × Nat))
    (mirroring : MirroringStrategy) :
    List (CandidateFitness × CandidateFitness) → List Candidate
  | [] => []
  | (a, b) :: rest =>
    multiPointAtPercentagesPair splits mirroring a b ++
      crossover_multi_point_at_percentages splits mirroring rest

/-- C9.  For every pair of parents and both percentage-based mating
strategies, a `split_at` percentage over 100 is not validated and does
not make crossover fail: the split index is silently the integer floor
of `split_at/100` times the parent's rule count (for `split_at > 100` it
is at least the whole rule count, so the slice silently truncates), the
mirrored variants wrap the `usize` subtraction instead of erroring, and
every pair still yields exactly two offspring under every mirroring
option. -/
theorem c9_percentage_crossover (splitAt : Nat) (hover : 100 < splitAt)
    (mirroring : MirroringStrategy)
    (matchups : List (CandidateFitness × CandidateFitness))
    (splits : List (Nat × Nat)) :
    (∀ n : Nat, n ≤ percentageIndex splitAt n) ∧
    (crossover_single_point_at_percentage splitAt mirroring matchups).length =
      2 * matchups.length ∧
    (crossover_multi_point_at_percentages splits mirroring matchups).length =
      2 * matchups.length := by
  refine ⟨?_, ?_, ?_⟩
  · intro n
    rw [percentageIndex, Nat.le_div_iff_mul_le (by omega)]
    calc n * 100 ≤ n * splitAt := Nat.mul_le_mul_left n (by omega)
      _ = splitAt * n := Nat.mul_comm n splitAt
  · induction matchups with
    | nil => rfl
    | cons pr rest ih =>
      obtain ⟨a, b⟩ := pr
      have hpair : (singlePointAtPercentagePair splitAt mirroring a b).length = 2 := rfl
      rw [crossover_single_point_at_percentage, List.length_append, ih, hpair]
      simp only [List.length_cons]
      omega
  · induction matchups with
    | nil => rfl
    | cons pr rest ih =>
      obtain ⟨a, b⟩ := pr
      have hpair : (multiPointAtPercentagesPair splits mirroring a b).length = 2 := rfl
      rw [crossover_multi_point_at_percentages, List.length_append, ih, hpair]
      simp only [List.length_cons]
      omega

/-- C9 witness: the theorem applied at `split_at = 150`, mirroring
`AlwaysMirror`, one concrete matchup, and one over-100 segment. -/
theorem c9_witness :
    (crossover_single_point_at_percentage 150 .alwaysMirror
        [(⟨[[(0, '0')], [(1, '1')]], 1⟩, ⟨[[(0, '1')]], 0⟩)]).length = 2 ∧
    (crossover_multi_point_at_percentages [(150, 200)] .alwaysMirror
        [(⟨[[(0, '0')], [(1, '1')]], 1⟩, ⟨[[(0, '1')]], 0⟩)]).length = 2 := by
  obtain ⟨-, h2, h3⟩ := c9_percentage_crossover 150 (by decide) .alwaysMirror
    [(⟨[[(0, '0')], [(1, '1')]], 1⟩, ⟨[[(0, '1')]], 0⟩)] [(150, 200)]
  exact ⟨h2, h3⟩

/-- `MutationError` (`mutation.rs`), extended with two embedding
artifacts: `panicked` renders `unwrap`/`gen_range` panics (the Rust
interface declares only `RngFail`), and `outOfFuel` marks exhaustion of
the structural-recursion fuel for the bounded retry loop (the fuel
passed in dominates the `retries` cap, so it is unreachable). -/
inductive MutationException where
  | rngFail
  | panicked
  | outOfFuel
deriving DecidableEq, Repr

/-- `MutationStrategyVariant` (`mutation.rs`). -/
inductive MutationStrategyVariant where
  | constraintSwap (delta : Int)
  | constraintRandomize (swapIfFail : Bool) (retries : Nat)
  | constraintValueRandomize
deriving DecidableEq, Repr

/-- `MutationStrategyCommonOptions` (`mutation.rs`): the four optional
percentage gates, read with `unwrap_or_default()` (i.e. `0`). -/
structure MutationStrategyCommonOptions where
  chance : Option Nat
  chance_per_candidate : Option Nat
  chance_per_rule : Option Nat
  chance_per_constraint : Option Nat

/-- `MutationStrategy` (`mutation.rs`). -/
structure MutationStrategy where
  options : MutationStrategyCommonOptions
  variant : MutationStrategyVariant

/-- `CalculatedSpecs` (`ga_spec.rs`): the alphabet and the derived
`max_index` — the `GaSpec` fields the mutation operators read. -/
structure CalculatedSpecs where
  alphabet : List Char
  max_index : Nat

/-- Rust `*delta as usize` on an `isize`: two's-complement wrap modulo
`2^64`. -/
def isizeAsUsize (d : Int) : Nat := (d % (2 ^ 64 : Int)).toNat

/-- `HashMap::remove` on a constraint map: the removed value and the
remaining map. -/
def Rule.removeKey (r : Rule) (k : Nat) : Option Char × Rule :=
  (Rule.get r k, r.filter fun p => decide (p.1 ≠ k))

/-- `HashMap::insert` on a constraint map; the embedding places the
inserted entry at the tail (a `HashMap`'s iteration order is
unspecified anyway). -/
def Rule.insertKey (r : Rule) (k : Nat) (c : Char) : Rule :=
  (r.filter fun p => decide (p.1 ≠ k)) ++ [(k, c)]

/-- Value-exchange block shared by `ConstraintSwap` and the
`swap_if_fail` fall-back of `ConstraintRandomize` (`mutation.rs`):
remove both keys, then re-insert each removed value at the other
key. -/
def Rule.swapValues (rule : Rule) (constraintKey newKey : Nat) : Rule :=
  let removedNew := Rule.removeKey rule newKey
  let removedCur := Rule.removeKey removedNew.2 constraintKey
  let afterCur :=
    match removedCur.1 with
    | some v => Rule.insertKey removedCur.2 newKey v
    | none => removedCur.2
  match removedNew.1 with
  | some v => Rule.insertKey afterCur constraintKey v
  | none => afterCur

/-- `MutationStrategyVariant::ConstraintSwap` (`mutation.rs`), exactly as
the source computes the partner key:
`constraint_key + (*delta as usize) % ga_spec.max_index`.  Rust operator
precedence parses this as `constraint_key + ((delta as usize) % max_index)`,
not as `(constraint_key + delta) mod max_index`. -/
def constraintSwapMutation (rule : Rule) (constraintKey : Nat) (delta : Int)
    (spec : CalculatedSpecs) : Rule :=
  Rule.swapValues rule constraintKey
    (constraintKey + isizeAsUsize delta % spec.max_index)

/-- Partner-position formula stated by the spec for `ConstraintSwap`,
for comparison with the code's: `(position + delta) mod max_index`,
always `< max_index`. -/
def constraintSwapSpecPartner (position : Nat) (delta : Int) (maxIndex : Nat) : Nat :=
  (((position : Int) + delta) % (maxIndex : Int)).toNat

/-- `MutationStrategyVariant::ConstraintValueRandomize` (`mutation.rs`):
on a constrained position, the removal gate is
`gen_ratio(1, ga_spec.max_index as u32 + 1)` — the source's own comment
says "The chance is 1 in alphabet+1", but the code uses `max_index` —
and the replacement symbol is drawn with
`gen_range(0, ga_spec.max_index as u32)` and then looked up with
`alphabet.chars().nth(pos).unwrap()`, which panics (`panicked`) whenever
the drawn index reaches past the alphabet.  On an unconstrained
position, the same draw-and-unwrap assigns a fresh symbol. -/
def constraintValueRandomizeMutation (rule : Rule) (constraintKey : Nat)
    (spec : CalculatedSpecs) (rng : Rng) : Except MutationException (Rule × Rng) :=
  match Rule.get rule constraintKey with
  | some character =>
    let gate := genRatio 1 (spec.max_index + 1) rng
    if gate.1 then
      .ok ((Rule.removeKey rule constraintKey).2, gate.2)
    else
      match genRange 0 spec.max_index gate.2 with
      | none => .error .panicked
      | some (pos, rng2) =>
        match spec.alphabet[pos]? with
        | none => .error .panicked
        | some newChar =>
          if newChar = character then
            match spec.alphabet[pos]? with
            | none => .error .panicked
            | some again => .ok (Rule.insertKey rule constraintKey again, rng2)
          else .ok (Rule.insertKey rule constraintKey newChar, rng2)
  | none =>
    match genRange 0 spec.max_index rng with
    | none => .error .panicked
    | some (pos, rng2) =>
      match spec.alphabet[pos]? with
      | none => .error .panicked
      | some newChar => .ok (Rule.insertKey rule constraintKey newChar, rng2)

/-- C4.  The claim (and the spec) say `ConstraintSwap{delta}` at
position `p` swaps with the partner `(p + delta) mod max_index`, always
`< max_index`.  The code computes `p + (delta mod max_index)` instead
(precedence slip), which moves the constraint of the rule `{1 ↦ '1'}`
with `delta = 1`, `max_index = 2` to position `2 = 1 + (1 % 2)` — a
position `≥ max_index`, out of the data model's range and guaranteed to
raise `IndexOutOfRange` on every width-2 example — whereas the spec's
formula gives partner `(1 + 1) % 2 = 0`. -/
theorem c4_constraint_swap_out_of_range :
    constraintSwapMutation [(1, '1')] 1 1 ⟨['0', '1'], 2⟩ = [(2, '1')] ∧
    ¬ (1 + isizeAsUsize 1 % 2 < 2) ∧
    constraintSwapSpecPartner 1 1 2 = 0 ∧ constraintSwapSpecPartner 1 1 2 < 2 := by
  refine ⟨?_, by decide, by decide, by decide⟩
  rfl

/-- C5.  The claim (and the spec, and the source's own comment) say the
removal gate of `ConstraintValueRandomize` fires with probability
`1/(alphabet_size+1)` and the replacement symbol is drawn uniformly from
the alphabet.  The code instead gates on `1/(max_index+1)` and draws the
replacement index from `[0, max_index)`.  With `alphabet = "01"`,
`max_index = 3` and the constant draw `3`: the claim's gate
(`3 % 3 < 1`) fires, the code's gate (`3 % 4 < 1`) does not — the code
keeps the constraint the claim removes; and with draws `1, 2` the code's
replacement index `2` runs off the alphabet and panics. -/
theorem c5_value_randomize_diverges :
    (genRatio 1 ((['0', '1'] : List Char).length + 1) ⟨fun _ => 3, 0⟩).1 = true ∧
    (genRatio 1 (3 + 1) ⟨fun _ => 3, 0⟩).1 = false ∧
    constraintValueRandomizeMutation [(0, '0')] 0 ⟨['0', '1'], 3⟩ ⟨fun _ => 3, 0⟩ =
      .ok ([(0, '0')], ⟨fun _ => 3, 2⟩) ∧
    constraintValueRandomizeMutation [(0, '0')] 0 ⟨['0', '1'], 3⟩ ⟨fun i => i + 1, 0⟩ =
      .error .panicked := by
  exact ⟨rfl, rfl, rfl, rfl⟩

/-- C10.  `ConstraintValueRandomize` draws the replacement-symbol index
uniformly from `[0, max_index)` and indexes the alphabet with it
followed by `unwrap`: whenever `max_index` exceeds the alphabet length
there is a draw (index `= |alphabet|`) on which the operation panics, so
its embedding is partial (`panicked`), even though `MutationError`
declares only `RngFail`. -/
theorem c10_value_randomize_partial (spec : CalculatedSpecs)
    (hgt : spec.alphabet.length < spec.max_index) :
    ∃ rng : Rng,
      constraintValueRandomizeMutation [] 0 spec rng = .error .panicked := by
  refine ⟨⟨fun _ => spec.alphabet.length, 0⟩, ?_⟩
  have h0 : (0 : Nat) < spec.max_index := by omega
  have hget : Rule.get ([] : Rule) 0 = none := rfl
  have hgen : genRange 0 spec.max_index ⟨fun _ => spec.alphabet.length, 0⟩ =
      some (spec.alphabet.length, ⟨fun _ => spec.alphabet.length, 1⟩) := by
    rw [genRange, if_pos h0]
    simp [Rng.draw, Nat.mod_eq_of_lt hgt]
  have hnone : spec.alphabet[spec.alphabet.length]? = none :=
    List.getElem?_eq_none_iff.mpr (Nat.le_refl _)
  simp only [constraintValueRandomizeMutation, hget, hgen, hnone]

/-- C10 witness: the theorem applied at the reference alphabet `"01"`
with `max_index = 3` (examples wider than the alphabet). -/
theorem c10_witness :
    ∃ rng : Rng,
      constraintValueRandomizeMutation [] 0 ⟨['0', '1'], 3⟩ rng =
        .error .panicked :=
  c10_value_randomize_partial ⟨['0', '1'], 3⟩ (by decide)

/-- Retry loop of `MutationStrategyVariant::ConstraintRandomize`
(`mutation.rs`): draw positions until an unconstrained one is found; a
collision sets the swap flag when `swap_if_fail`, and fails with
`RngFail` once `fails` reaches `retries` (checked before the
increment).  Fuel dominates `retries + 1` iterations. -/
def constraintRandomizeLoop (rule : Rule) (spec : CalculatedSpecs)
    (swapIfFail : Bool) (retries : Nat) :
    Nat → Nat → Bool → Rng → Except MutationException (Nat × Bool × Rng)
  | 0, _, _, _ => .error .outOfFuel
  | fuel + 1, fails, swap, rng =>
    match genRange 0 spec.max_index rng with
    | none => .error .panicked
    | some (rngIndex, rng2) =>
      if (Rule.get rule rngIndex).isSome then
        let swap2 := if swapIfFail then true else swap
        if fails ≥ retries then .error .rngFail
        else constraintRandomizeLoop rule spec swapIfFail retries fuel
          (fails + 1) swap2 rng2
      else .ok (rngIndex, swap, rng2)

/-- `MutationStrategyVariant::ConstraintRandomize` (`mutation.rs`): on a
successful draw without swap, move the value from the original position
to the new one (the original becomes unconstrained); with the swap flag
set, exchange the two positions' values instead. -/
def constraintRandomizeMutation (rule : Rule) (constraintKey : Nat)
    (spec : CalculatedSpecs) (swapIfFail : Bool) (retries : Nat) (rng : Rng) :
    Except MutationException (Rule × Rng) :=
  match constraintRandomizeLoop rule spec swapIfFail retries (retries + 2)
      0 false rng with
  | .error e => .error e
  | .ok (newKey, swap, rng2) =>
    if swap then .ok (Rule.swapValues rule constraintKey newKey, rng2)
    else
      let removed := Rule.removeKey rule constraintKey
      match removed.1 with
      | some v => .ok (Rule.insertKey removed.2 newKey v, rng2)
      | none => .ok (removed.2, rng2)

/-- Variant dispatch of the innermost `match &self.variant` in
`MutationStrategy::mutate` (`mutation.rs`). -/
def applyMutationVariant (variant : MutationStrategyVariant)
    (spec : CalculatedSpecs) (constraintKey : Nat) (rule : Rule) (rng : Rng) :
    Except MutationException (Rule × Rng) :=
  match variant with
  | .constraintSwap delta =>
    .ok (constraintSwapMutation rule constraintKey delta spec, rng)
  | .constraintRandomize swapIfFail retries =>
    constraintRandomizeMutation rule constraintKey spec swapIfFail retries rng
  | .constraintValueRandomize =>
    constraintValueRandomizeMutation rule constraintKey spec rng

/-- Per-constraint loop `for constraint_key in 0..ga_spec.max_index` of
`MutationStrategy::mutate`: every position in `[0, max_index)` is gated
by `chance_per_constraint`; positions that pass set `ran` and apply the
variant. -/
def mutateRuleAtKeys (variant : MutationStrategyVariant) (spec : CalculatedSpecs)
    (opts : MutationStrategyCommonOptions) :
    List Nat → Rule → Bool → Rng → Except MutationException (Rule × Bool × Rng)
  | [], rule, ran, rng => .ok (rule, ran, rng)
  | k :: rest, rule, ran, rng =>
    let gate := genRatio (opts.chance_per_constraint.getD 0) 100 rng
    if gate.1 then
      match applyMutationVariant variant spec k rule gate.2 with
      | .error e => .error e
      | .ok (rule2, rng2) => mutateRuleAtKeys variant spec opts rest rule2 true rng2
    else mutateRuleAtKeys variant spec opts rest rule ran gate.2

/-- Per-rule loop `for rule in rules.iter_mut()` of
`MutationStrategy::mutate`: each rule is gated by `chance_per_rule`; the
`ran` flag is shared across the candidate's rules. -/
def mutateRules (variant : MutationStrategyVariant) (spec : CalculatedSpecs)
    (opts : MutationStrategyCommonOptions) :
    List Rule → Bool → Rng → Except MutationException (List Rule × Bool × Rng)
  | [], ran, rng => .ok ([], ran, rng)
  | r :: rest, ran, rng =>
    let gate := genRatio (opts.chance_per_rule.getD 0) 100 rng
    if gate.1 then
      match mutateRuleAtKeys variant spec opts (List.range spec.max_index) r ran
          gate.2 with
      | .error e => .error e
      | .ok (r2, ran2, rng2) =>
        match mutateRules variant spec opts rest ran2 rng2 with
        | .error e => .error e
        | .ok (rest2, ran3, rng3) => .ok (r2 :: rest2, ran3, rng3)
    else
      match mutateRules variant spec opts rest ran gate.2 with
      | .error e => .error e
      | .ok (rest2, ran2, rng2) => .ok (r :: rest2, ran2, rng2)

/-- `Population` (`population.rs`): a generation counter plus the
candidate `HashSet`, embedded as a duplicate-free list in iteration
order. -/
structure Population where
  generation : Nat
  candidates : List Candidate

/-- `HashSet<Candidate>::contains` (`Population::contains`). -/
def Population.containsList (pop : List Candidate) (c : Candidate) : Bool :=
  pop.any fun x => Candidate.beq c x

/-- `HashSet<Candidate>::insert` (`Population::insert`): no-op on a
structurally equal member, otherwise adds the candidate. -/
def Population.insertList (pop : List Candidate) (c : Candidate) : List Candidate :=
  if Population.containsList pop c then pop else pop ++ [c]

/-- `HashSet<Candidate>::remove` (`Population::remove`): drop the
structurally equal member, if any. -/
def Population.removeList (pop : List Candidate) (c : Candidate) : List Candidate :=
  pop.eraseP fun x => Candidate.beq c x

/-- `Population::append` (`population.rs`): stamp each offspring with
the current generation (bookkeeping only — `Candidate` equality ignores
it, so the embedding drops the field) and insert it, skipping
duplicates. -/
def Population.appendList (pop : List Candidate) (list : List Candidate) :
    List Candidate :=
  list.foldl Population.insertList pop

/-- Per-candidate loop of `MutationStrategy::mutate` (`mutation.rs`):
each candidate is gated by `chance_per_candidate`; if any constraint ran,
the rebuilt candidate is recorded as a pending `(old, new)` change only
when it differs from its pre-mutation form, is not already in the
population, and no pending change already produced it. -/
def mutateCandidates (variant : MutationStrategyVariant) (spec : CalculatedSpecs)
    (opts : MutationStrategyCommonOptions) (pop : List Candidate) :
    List Candidate → List (Candidate × Candidate) → Rng →
      Except MutationException (List (Candidate × Candidate) × Rng)
  | [], changes, rng => .ok (changes, rng)
  | cand :: rest, changes, rng =>
    if (genRatio (opts.chance_per_candidate.getD 0) 100 rng).1 then
      match mutateRules variant spec opts cand false
          (genRatio (opts.chance_per_candidate.getD 0) 100 rng).2 with
      | .error e => .error e
      | .ok (rules2, ran, rng2) =>
        mutateCandidates variant spec opts pop rest
          (if ran && !Candidate.beq (Candidate.from_rules rules2) cand &&
              !Population.containsList pop (Candidate.from_rules rules2) &&
              !(changes.any fun pr =>
                Candidate.beq pr.2 (Candidate.from_rules rules2)) then
            changes ++ [(cand, Candidate.from_rules rules2)]
          else changes) rng2
    else mutateCandidates variant spec opts pop rest changes
      (genRatio (opts.chance_per_candidate.getD 0) 100 rng).2

/-- Change-application loop of `MutationStrategy::mutate`
(`mutation.rs`): for each pending pair, remove the old candidate and
insert its mutated replacement. -/
def Population.applyChanges (pop : List Candidate) :
    List (Candidate × Candidate) → List Candidate
  | [] => pop
  | (removeMe, addMe) :: rest =>
    Population.applyChanges
      (Population.insertList (Population.removeList pop removeMe) addMe) rest

/-- `MutationStrategy::mutate` (`mutation.rs`): early return when
`chance` is zero or the overall gate fails; otherwise collect the
pending changes over the population's candidates and apply them as
paired remove/insert operations. -/
def MutationStrategy.mutate (strategy : MutationStrategy)
    (spec : CalculatedSpecs) (pop : Population) (rng : Rng) :
    Except MutationException (Population × Rng) :=
  let chance := strategy.options.chance.getD 0
  if chance = 0 then .ok (pop, rng)
  else
    let gate := genRatio chance 100 rng
    if gate.1 then
      match mutateCandidates strategy.variant spec strategy.options pop.candidates
          pop.candidates [] gate.2 with
      | .error e => .error e
      | .ok (changes, rng2) =>
        .ok ({ pop with candidates := Population.applyChanges pop.candidates changes },
          rng2)
    else .ok (pop, gate.2)

/-- `HashSet` invariant of a candidate collection: no two members are
structurally equal. -/
def PairwiseDistinct (l : List Candidate) : Prop :=
  l.Pairwise fun a b => Candidate.beq a b = false

section PopulationSetLemmas

theorem Candidate.beq_eq_false_symm {a b : Candidate}
    (h : Candidate.beq a b = false) : Candidate.beq b a = false := by
  cases hba : Candidate.beq b a with
  | false => rfl
  | true => rw [Candidate.beq_symmetric hba] at h; cases h

theorem Population.containsList_eq_true_iff (pop : List Candidate) (c : Candidate) :
    Population.containsList pop c = true ↔ ∃ x ∈ pop, Candidate.beq c x = true := by
  rw [Population.containsList, List.any_eq_true]

theorem Population.containsList_eq_false_iff (pop : List Candidate) (c : Candidate) :
    Population.containsList pop c = false ↔ ∀ x ∈ pop, Candidate.beq c x = false := by
  rw [Population.containsList, List.any_eq_false]
  constructor
  · intro h x hx
    have := h x hx
    cases hb : Candidate.beq c x with
    | false => rfl
    | true => exact absurd hb this
  · intro h x hx
    rw [h x hx]
    exact Bool.false_ne_true

theorem Population.containsList_of_mem {pop : List Candidate} {c : Candidate}
    (h : c ∈ pop) : Population.containsList pop c = true :=
  (Population.containsList_eq_true_iff pop c).mpr ⟨c, h, Candidate.beq_self c⟩

theorem Population.length_insertList_of_not_contains (pop : List Candidate)
    (c : Candidate) (h : Population.containsList pop c = false) :
    (Population.insertList pop c).length = pop.length + 1 := by
  rw [Population.insertList, if_neg (by rw [h]; exact Bool.false_ne_true)]
  simp

theorem Population.length_le_insertList (pop : List Candidate) (c : Candidate) :
    pop.length ≤ (Population.insertList pop c).length := by
  rw [Population.insertList]
  by_cases h : Population.containsList pop c
  · rw [if_pos h]
  · rw [if_neg h]
    simp

theorem Population.length_le_appendList (pop : List Candidate)
    (list : List Candidate) :
    pop.length ≤ (Population.appendList pop list).length := by
  induction list generalizing pop with
  | nil => exact Nat.le_refl _
  | cons x xs ih =>
    calc pop.length ≤ (Population.insertList pop x).length :=
          Population.length_le_insertList pop x
      _ ≤ _ := ih (Population.insertList pop x)

theorem Population.length_removeList_of_contains (pop : List Candidate)
    (c : Candidate) (h : Population.containsList pop c = true) :
    (Population.removeList pop c).length + 1 = pop.length := by
  obtain ⟨x, hx, hbeq⟩ := (Population.containsList_eq_true_iff pop c).mp h
  have hlen : (Population.removeList pop c).length = pop.length - 1 :=
    List.length_eraseP_of_mem hx hbeq
  have hpos : 0 < pop.length := List.length_pos_of_mem hx
  omega

theorem Population.containsList_insertList_of_contains (pop : List Candidate)
    (c d : Candidate) (h : Population.containsList pop c = true) :
    Population.containsList (Population.insertList pop d) c = true := by
  rw [Population.insertList]
  by_cases hd : Population.containsList pop d
  · rw [if_pos hd]; exact h
  · rw [if_neg hd, Population.containsList, List.any_append]
    rw [Population.containsList] at h
    rw [h, Bool.true_or]

theorem Population.containsList_insertList_of_not (pop : List Candidate)
    (c d : Candidate) (hc : Population.containsList pop c = false)
    (hcd : Candidate.beq c d = false) :
    Population.containsList (Population.insertList pop d) c = false := by
  rw [Population.insertList]
  by_cases hd : Population.containsList pop d
  · rw [if_pos hd]; exact hc
  · rw [if_neg hd, Population.containsList, List.any_append]
    rw [Population.containsList] at hc
    rw [hc, Bool.false_or]
    simp [hcd]

theorem Population.containsList_removeList_mono (pop : List Candidate)
    (c d : Candidate) (hc : Population.containsList pop c = false) :
    Population.containsList (Population.removeList pop d) c = false := by
  rw [Population.containsList_eq_false_iff] at hc ⊢
  intro x hx
  exact hc x (List.mem_of_mem_eraseP hx)

theorem Population.containsList_removeList_of_contains (pop : List Candidate)
    (c d : Candidate) (hc : Population.containsList pop c = true)
    (hcd : Candidate.beq c d = false) :
    Population.containsList (Population.removeList pop d) c = true := by
  obtain ⟨y, hy, hbeq⟩ := (Population.containsList_eq_true_iff pop c).mp hc
  by_cases hany : ∃ a ∈ pop, Candidate.beq d a = true
  · obtain ⟨a, ha, hda⟩ := hany
    obtain ⟨a2, l1, l2, hl1, hp2, hsplit, herase⟩ :=
      List.exists_of_eraseP ha hda
    have hymem : y ∈ l1 ++ l2 := by
      have hyne : y ≠ a2 := by
        intro hcontra
        subst hcontra
        have hdy : Candidate.beq d y = true := hp2
        have hcdtrue : Candidate.beq c d = true :=
          Candidate.beq_transitive hbeq (Candidate.beq_symmetric hdy)
        rw [hcd] at hcdtrue
        cases hcdtrue
      rw [hsplit] at hy
      rcases List.mem_append.mp hy with h1 | h2
      · exact List.mem_append.mpr (Or.inl h1)
      · rcases List.mem_cons.mp h2 with rfl | h3
        · exact absurd rfl hyne
        · exact List.mem_append.mpr (Or.inr h3)
    rw [Population.removeList, herase]
    exact (Population.containsList_eq_true_iff _ c).mpr ⟨y, hymem, hbeq⟩
  · have hallnot : ∀ a ∈ pop, ¬ (Candidate.beq d a = true) := by
      intro a ha hcontra
      exact hany ⟨a, ha, hcontra⟩
    rw [Population.removeList, List.eraseP_of_forall_not hallnot]
    exact hc

theorem Population.pairwiseDistinct_insertList (pop : List Candidate)
    (c : Candidate) (h : PairwiseDistinct pop) :
    PairwiseDistinct (Population.insertList pop c) := by
  rw [Population.insertList]
  by_cases hc : Population.containsList pop c
  · rw [if_pos hc]; exact h
  · rw [if_neg hc]
    rw [PairwiseDistinct, List.pairwise_append]
    refine ⟨h, by simp, ?_⟩
    intro a ha b hb
    rw [List.mem_singleton] at hb
    rw [hb]
    have hcfalse : Population.containsList pop c = false := by
      cases hcc : Population.containsList pop c with
      | false => rfl
      | true => exact absurd hcc hc
    exact Candidate.beq_eq_false_symm
      ((Population.containsList_eq_false_iff pop c).mp hcfalse a ha)

theorem Population.pairwiseDistinct_appendList (pop : List Candidate)
    (list : List Candidate) (h : PairwiseDistinct pop) :
    PairwiseDistinct (Population.appendList pop list) := by
  induction list generalizing pop with
  | nil => exact h
  | cons x xs ih =>
    exact ih (Population.insertList pop x)
      (Population.pairwiseDistinct_insertList pop x h)

end PopulationSetLemmas

section MutateSizeLemmas

theorem Population.applyChanges_length :
    ∀ (changes : List (Candidate × Candidate)) (cur : List Candidate),
      (∀ pr ∈ changes, Population.containsList cur pr.1 = true ∧
        Population.containsList cur pr.2 = false) →
      changes.Pairwise (fun x y => Candidate.beq x.1 y.1 = false) →
      changes.Pairwise (fun x y => Candidate.beq x.2 y.2 = false) →
      (Population.applyChanges cur changes).length = cur.length := by
  intro changes
  induction changes with
  | nil => intro cur _ _ _; rfl
  | cons pr rest ih =>
    intro cur h1 h2 h3
    obtain ⟨o, n⟩ := pr
    have ho : Population.containsList cur o = true :=
      (h1 (o, n) (List.mem_cons_self _ _)).1
    have hn : Population.containsList cur n = false :=
      (h1 (o, n) (List.mem_cons_self _ _)).2
    have hremlen := Population.length_removeList_of_contains cur o ho
    have hnrem : Population.containsList (Population.removeList cur o) n = false :=
      Population.containsList_removeList_mono cur n o hn
    have hinslen := Population.length_insertList_of_not_contains
      (Population.removeList cur o) n hnrem
    have hcur2 : (Population.insertList (Population.removeList cur o) n).length =
        cur.length := by omega
    have hstep : Population.applyChanges cur ((o, n) :: rest) =
        Population.applyChanges
          (Population.insertList (Population.removeList cur o) n) rest := rfl
    rw [hstep]
    rw [← hcur2]
    refine ih _ ?_ (List.pairwise_cons.mp h2).2 (List.pairwise_cons.mp h3).2
    intro qr hqr
    have hq1 : Population.containsList cur qr.1 = true := (h1 qr (List.mem_cons_of_mem _ hqr)).1
    have hq2 : Population.containsList cur qr.2 = false := (h1 qr (List.mem_cons_of_mem _ hqr)).2
    have hq1o : Candidate.beq qr.1 o = false :=
      Candidate.beq_eq_false_symm ((List.pairwise_cons.mp h2).1 qr hqr)
    have hq2n : Candidate.beq qr.2 n = false :=
      Candidate.beq_eq_false_symm ((List.pairwise_cons.mp h3).1 qr hqr)
    constructor
    · exact Population.containsList_insertList_of_contains _ qr.1 n
        (Population.containsList_removeList_of_contains cur qr.1 o hq1 hq1o)
    · exact Population.containsList_insertList_of_not _ qr.2 n
        (Population.containsList_removeList_mono cur qr.2 o hq2) hq2n

theorem mutateCandidates_changes_spec (variant : MutationStrategyVariant)
    (spec : CalculatedSpecs) (opts : MutationStrategyCommonOptions)
    (pop : List Candidate) :
    ∀ (todo : List Candidate) (changes : List (Candidate × Candidate)) (rng : Rng)
      (changes2 : List (Candidate × Candidate)) (rng2 : Rng),
      mutateCandidates variant spec opts pop todo changes rng = .ok (changes2, rng2) →
      (∀ c ∈ todo, Population.containsList pop c = true) →
      todo.Pairwise (fun a b => Candidate.beq a b = false) →
      (∀ pr ∈ changes, Population.containsList pop pr.1 = true ∧
        Population.containsList pop pr.2 = false) →
      changes.Pairwise (fun x y => Candidate.beq x.1 y.1 = false) →
      changes.Pairwise (fun x y => Candidate.beq x.2 y.2 = false) →
      (∀ pr ∈ changes, ∀ c ∈ todo, Candidate.beq pr.1 c = false) →
      (∀ pr ∈ changes2, Population.containsList pop pr.1 = true ∧
        Population.containsList pop pr.2 = false) ∧
      changes2.Pairwise (fun x y => Candidate.beq x.1 y.1 = false) ∧
      changes2.Pairwise (fun x y => Candidate.beq x.2 y.2 = false) := by
  intro todo
  induction todo with
  | nil =>
    intro changes rng changes2 rng2 hrun _ _ hch h2 h3 _
    rw [mutateCandidates] at hrun
    injection hrun with hpair
    injection hpair with hc hr
    subst hc
    exact ⟨hch, h2, h3⟩
  | cons cand rest ih =>
    intro changes rng changes2 rng2 hrun htodo hpw hch h2 h3 h4
    by_cases hgate : (genRatio (opts.chance_per_candidate.getD 0) 100 rng).1
    · cases hmr : mutateRules variant spec opts cand false
          (genRatio (opts.chance_per_candidate.getD 0) 100 rng).2 with
      | error e =>
        rw [mutateCandidates, if_pos hgate, hmr] at hrun
        cases hrun
      | ok res =>
        obtain ⟨rules2, ran, rngB⟩ := res
        rw [mutateCandidates, if_pos hgate] at hrun
        simp only [hmr] at hrun
        by_cases hcond : (ran &&
            !Candidate.beq (Candidate.from_rules rules2) cand &&
            !Population.containsList pop (Candidate.from_rules rules2) &&
            !(changes.any fun pr =>
              Candidate.beq pr.2 (Candidate.from_rules rules2))) = true
        · rw [if_pos hcond] at hrun
          rw [Bool.and_eq_true, Bool.and_eq_true, Bool.and_eq_true] at hcond
          obtain ⟨⟨⟨hran, hne⟩, hc4⟩, hc2⟩ := hcond
          have hnotpop : Population.containsList pop
              (Candidate.from_rules rules2) = false := by
            simpa using hc4
          have hnotch : ∀ pr ∈ changes,
              Candidate.beq pr.2 (Candidate.from_rules rules2) = false := by
            have hanyf : (changes.any fun pr =>
                Candidate.beq pr.2 (Candidate.from_rules rules2)) = false := by
              simpa using hc2
            intro pr hpr
            have := List.any_eq_false.mp hanyf pr hpr
            cases hval : Candidate.beq pr.2 (Candidate.from_rules rules2) with
            | false => rfl
            | true => exact absurd hval this
          refine ih (changes ++ [(cand, Candidate.from_rules rules2)]) rngB
            changes2 rng2 hrun
            (fun c hc => htodo c (List.mem_cons_of_mem _ hc))
            (List.pairwise_cons.mp hpw).2 ?_ ?_ ?_ ?_
          · intro pr hpr
            rcases List.mem_append.mp hpr with hold | hnew
            · exact hch pr hold
            · rw [List.mem_singleton] at hnew
              rw [hnew]
              exact ⟨htodo cand (List.mem_cons_self _ _), hnotpop⟩
          · rw [List.pairwise_append]
            refine ⟨h2, by simp, ?_⟩
            intro x hx y hy
            rw [List.mem_singleton] at hy
            rw [hy]
            exact h4 x hx cand (List.mem_cons_self _ _)
          · rw [List.pairwise_append]
            refine ⟨h3, by simp, ?_⟩
            intro x hx y hy
            rw [List.mem_singleton] at hy
            rw [hy]
            exact hnotch x hx
          · intro pr hpr c hc
            rcases List.mem_append.mp hpr with hold | hnew
            · exact h4 pr hold c (List.mem_cons_of_mem _ hc)
            · rw [List.mem_singleton] at hnew
              rw [hnew]
              exact (List.pairwise_cons.mp hpw).1 c hc
        · rw [if_neg hcond] at hrun
          exact ih changes rngB changes2 rng2 hrun
            (fun c hc => htodo c (List.mem_cons_of_mem _ hc))
            (List.pairwise_cons.mp hpw).2 hch h2 h3
            (fun pr hpr c hc => h4 pr hpr c (List.mem_cons_of_mem _ hc))
    · rw [mutateCandidates, if_neg hgate] at hrun
      exact ih changes _ changes2 rng2 hrun
        (fun c hc => htodo c (List.mem_cons_of_mem _ hc))
        (List.pairwise_cons.mp hpw).2 hch h2 h3
        (fun pr hpr c hc => h4 pr hpr c (List.mem_cons_of_mem _ hc))

theorem MutationStrategy.mutate_preserves (strategy : MutationStrategy)
    (spec : CalculatedSpecs) (pop : Population) (rng : Rng)
    (pop2 : Population) (rng2 : Rng)
    (hnd : PairwiseDistinct pop.candidates)
    (h : MutationStrategy.mutate strategy spec pop rng = .ok (pop2, rng2)) :
    pop2.candidates.length = pop.candidates.length ∧
      pop2.generation = pop.generation := by
  rw [MutationStrategy.mutate] at h
  by_cases hchance : strategy.options.chance.getD 0 = 0
  · rw [if_pos hchance] at h
    injection h with hpair
    injection hpair with hp hr
    rw [← hp]
    exact ⟨rfl, rfl⟩
  · rw [if_neg hchance] at h
    by_cases hgate : (genRatio (strategy.options.chance.getD 0) 100 rng).1
    · rw [if_pos hgate] at h
      cases hmc : mutateCandidates strategy.variant spec strategy.options
          pop.candidates pop.candidates []
          (genRatio (strategy.options.chance.getD 0) 100 rng).2 with
      | error e => rw [hmc] at h; cases h
      | ok res =>
        obtain ⟨changes, rngB⟩ := res
        rw [hmc] at h
        injection h with hpair
        injection hpair with hp hr
        obtain ⟨hch, h2, h3⟩ := mutateCandidates_changes_spec strategy.variant spec
          strategy.options pop.candidates pop.candidates [] _ changes rngB hmc
          (fun c hc => Population.containsList_of_mem hc) hnd
          (by intro pr hpr; cases hpr) List.Pairwise.nil List.Pairwise.nil
          (by intro pr hpr; cases hpr)
        rw [← hp]
        exact ⟨Population.applyChanges_length changes pop.candidates hch h2 h3, rfl⟩
    · rw [if_neg hgate] at h
      injection h with hpair
      injection hpair with hp hr
      rw [← hp]
      exact ⟨rfl, rfl⟩

end MutateSizeLemmas

/-- `InitialGenerationComponentSpec` (`ga_spec.rs`): one `{min, max,
rng_fail_retries}` triple of the initial-generation configuration. -/
structure InitialGenerationComponentSpec where
  min : Nat
  max : Nat
  rng_fail_retries : Nat

/-- `InitialGenerationSpec` (`ga_spec.rs`): the three generation
components.  `Rule::generate` reads its target range and its
consecutive-fail cap through the spec's constraint component (`rule.rs`
names these `min_rule_constraints` / `max_rule_constraints` /
`max_rule_generation_consecutive_fail`, the flat field layout of
`popgenspec.rs`). -/
structure InitialGenerationSpec where
  candidates : InitialGenerationComponentSpec
  rules : InitialGenerationComponentSpec
  constraints : InitialGenerationComponentSpec

/-- Constraint-insertion loop of `Rule::generate` (`rule.rs`): draw a
position in `[0, max_index)`; a collision counts toward the
consecutive-fail cap (stop early, keeping fewer constraints), a fresh
position gets a random alphabet symbol and resets the counter.  `none`
renders the `gen_range` panics on empty ranges and the fuel artifact. -/
def Rule.generateLoop (maxIndex : Nat) (alphabet : List Char) (cap : Nat)
    (target : Nat) :
    Nat → Rule → Nat → Rng → Option (Rule × Rng)
  | 0, _, _, _ => none
  | fuel + 1, constraints, consecutiveFails, rng =>
    if constraints.length < target then
      match genRange 0 maxIndex rng with
      | none => none
      | some (index, rng2) =>
        if (Rule.get constraints index).isSome then
          if consecutiveFails + 1 ≥ cap then some (constraints, rng2)
          else Rule.generateLoop maxIndex alphabet cap target fuel constraints
            (consecutiveFails + 1) rng2
        else
          match genRange 0 alphabet.length rng2 with
          | none => none
          | some (characterIndex, rng3) =>
            match alphabet[characterIndex]? with
            | none => none
            | some c => Rule.generateLoop maxIndex alphabet cap target fuel
              (Rule.insertKey constraints index c) 0 rng3
    else some (constraints, rng)

/-- `Rule::generate` (`rule.rs`): draw the target constraint count in
`[min, max)`, then run the insertion loop (fuel dominating the cap-bound
iteration count). -/
def Rule.generate (gen : InitialGenerationSpec) (maxIndex : Nat)
    (alphabet : List Char) (rng : Rng) : Option (Rule × Rng) :=
  match genRange gen.constraints.min gen.constraints.max rng with
  | none => none
  | some (target, rng2) =>
    Rule.generateLoop maxIndex alphabet gen.constraints.rng_fail_retries target
      ((target + 1) * (gen.constraints.rng_fail_retries + 2)) [] 0 rng2

/-- Rule-insertion loop of `Candidate::generate` (`candidate.rs`): a
duplicate rule (by `Rule` equality) counts toward the cap, a fresh rule
resets the counter. -/
def Candidate.generateLoop (gen : InitialGenerationSpec) (maxIndex : Nat)
    (alphabet : List Char) (target : Nat) :
    Nat → Candidate → Nat → Rng → Option (Candidate × Rng)
  | 0, _, _, _ => none
  | fuel + 1, rules, consecutiveFails, rng =>
    if rules.length < target then
      match Rule.generate gen maxIndex alphabet rng with
      | none => none
      | some (r, rng2) =>
        if rules.any fun s => Rule.beq s r then
          if consecutiveFails + 1 ≥ gen.rules.rng_fail_retries then some (rules, rng2)
          else Candidate.generateLoop gen maxIndex alphabet target fuel rules
            (consecutiveFails + 1) rng2
        else Candidate.generateLoop gen maxIndex alphabet target fuel
          (rules ++ [r]) 0 rng2
    else some (rules, rng)

/-- `Candidate::generate` (`candidate.rs`): target rule count in
`[min, max)`, then the bounded-retry insertion loop. -/
def Candidate.generate (gen : InitialGenerationSpec) (maxIndex : Nat)
    (alphabet : List Char) (rng : Rng) : Option (Candidate × Rng) :=
  match genRange gen.rules.min gen.rules.max rng with
  | none => none
  | some (target, rng2) =>
    Candidate.generateLoop gen maxIndex alphabet target
      ((target + 1) * (gen.rules.rng_fail_retries + 2)) [] 0 rng2

/-- Candidate-insertion loop of `Population::generate`
(`population.rs`): generated candidates are tagged with birth
generation 0 (bookkeeping the embedding drops) and inserted; a
structural duplicate counts toward the cap. -/
def Population.generateLoop (gen : InitialGenerationSpec) (maxIndex : Nat)
    (alphabet : List Char) (target : Nat) :
    Nat → List Candidate → Nat → Rng → Option (List Candidate × Rng)
  | 0, _, _, _ => none
  | fuel + 1, candidates, consecutiveFails, rng =>
    if candidates.length < target then
      match Candidate.generate gen maxIndex alphabet rng with
      | none => none
      | some (candidate, rng2) =>
        if Population.containsList candidates candidate then
          if consecutiveFails + 1 ≥ gen.candidates.rng_fail_retries then
            some (candidates, rng2)
          else Population.generateLoop gen maxIndex alphabet target fuel candidates
            (consecutiveFails + 1) rng2
        else Population.generateLoop gen maxIndex alphabet target fuel
          (candidates ++ [candidate]) 0 rng2
    else some (candidates, rng)

/-- `Population::generate` (`population.rs`): target candidate count in
`[min, max)`, bounded-retry insertion, and an initial generation counter
of 1. -/
def Population.generate (gen : InitialGenerationSpec) (maxIndex : Nat)
    (alphabet : List Char) (rng : Rng) : Option (Population × Rng) :=
  match genRange gen.candidates.min gen.candidates.max rng with
  | none => none
  | some (target, rng2) =>
    match Population.generateLoop gen maxIndex alphabet target
        ((target + 1) * (gen.candidates.rng_fail_retries + 2)) [] 0 rng2 with
    | none => none
    | some (candidates, rng3) => some (⟨1, candidates⟩, rng3)

section GenerateLemmas

theorem Population.generateLoop_distinct (gen : InitialGenerationSpec)
    (maxIndex : Nat) (alphabet : List Char) (target : Nat) :
    ∀ (fuel : Nat) (candidates : List Candidate) (fails : Nat) (rng : Rng)
      (out : List Candidate) (rng2 : Rng),
      Population.generateLoop gen maxIndex alphabet target fuel candidates fails
          rng = some (out, rng2) →
      PairwiseDistinct candidates → PairwiseDistinct out := by
  intro fuel
  induction fuel with
  | zero => intro candidates fails rng out rng2 h _; cases h
  | succ f ih =>
    intro candidates fails rng out rng2 h hnd
    rw [Population.generateLoop] at h
    by_cases hlen : candidates.length < target
    · rw [if_pos hlen] at h
      cases hgen : Candidate.generate gen maxIndex alphabet rng with
      | none => rw [hgen] at h; cases h
      | some res =>
        obtain ⟨candidate, rngB⟩ := res
        simp only [hgen] at h
        by_cases hmem : Population.containsList candidates candidate = true
        · rw [if_pos hmem] at h
          by_cases hcap : fails + 1 ≥ gen.candidates.rng_fail_retries
          · rw [if_pos hcap] at h
            injection h with hpair
            injection hpair with h1 h2
            rw [← h1]
            exact hnd
          · rw [if_neg hcap] at h
            exact ih candidates (fails + 1) rngB out rng2 h hnd
        · rw [if_neg hmem] at h
          refine ih (candidates ++ [candidate]) 0 rngB out rng2 h ?_
          have hins : candidates ++ [candidate] =
              Population.insertList candidates candidate := by
            rw [Population.insertList, if_neg hmem]
          rw [hins]
          exact Population.pairwiseDistinct_insertList candidates candidate hnd
    · rw [if_neg hlen] at h
      injection h with hpair
      injection hpair with h1 h2
      rw [← h1]
      exact hnd

theorem Population.generate_spec (gen : InitialGenerationSpec) (maxIndex : Nat)
    (alphabet : List Char) (rng : Rng) (pop : Population) (rng2 : Rng)
    (h : Population.generate gen maxIndex alphabet rng = some (pop, rng2)) :
    pop.generation = 1 ∧ PairwiseDistinct pop.candidates := by
  rw [Population.generate] at h
  cases hr : genRange gen.candidates.min gen.candidates.max rng with
  | none => rw [hr] at h; cases h
  | some res =>
    obtain ⟨target, rngB⟩ := res
    simp only [hr] at h
    cases hl : Population.generateLoop gen maxIndex alphabet target
        ((target + 1) * (gen.candidates.rng_fail_retries + 2)) [] 0 rngB with
    | none => rw [hl] at h; cases h
    | some res2 =>
      obtain ⟨candidates, rngC⟩ := res2
      rw [hl] at h
      injection h with hpair
      injection hpair with h1 h2
      rw [← h1]
      exact ⟨rfl, Population.generateLoop_distinct gen maxIndex alphabet target _
        [] 0 rngB candidates rngC hl List.Pairwise.nil⟩

end GenerateLemmas

/-- `CrossoverError` (`crossover.rs`). -/
inductive CrossoverError where
  | rngFail
  | cantGenerateNonAsexualMatchupWithOneCandidate
deriving DecidableEq, Repr

/-- Run-level errors of `run_ga` (`main.rs`): every operator error
propagates via `?` into `Box<dyn Error>` and aborts the run; `panicked`
renders the `max.unwrap()` panic on an empty fitness list. -/
inductive GaError where
  | fitnessError (e : RuleEvaluationError)
  | selectionError (e : SelectionError)
  | crossoverError (e : CrossoverError)
  | mutationError (e : MutationException)
  | panicked

/-- `max` fold of the per-generation reporting block in `run_ga`
(`main.rs`): the greatest fitness seen so far, `none` for an empty
list.  Both the `population.maxFitness` print and the stop condition
call `max.unwrap()` on it. -/
def maxFitness (fitness : List CandidateFitness) : Option Nat :=
  fitness.foldl
    (fun acc cf =>
      match acc with
      | some m => if cf.fitness > m then some cf.fitness else some m
      | none => some cf.fitness) none

/-- `MatchupStrategy::NextFittest` (`crossover.rs`): zip every candidate
with its immediate successor (`candidates.len() - 1` underflows only on
an empty list, where the `take` yields the same empty prefix either
way). -/
def matchup_next_fittest (cands : List CandidateFitness) :
    List (CandidateFitness × CandidateFitness) :=
  (cands.take (cands.length - 1)).zip (cands.drop 1)

/-- Fully-resolved configuration consumed by `run_ga` (`main.rs`).  The
selection and crossover phases are abstracted as functions of the
fitness-ranked list with the same signatures as the embedded concrete
strategies (`RouletteSelection.select`, the percentage matings over a
matchup), so the driver facts quantify over every valid configuration;
mutation is the embedded `MutationStrategy`. -/
structure GaConfig where
  max_evolutions : Nat
  stop_at_optimum_fitness : Bool
  data_set : List DataItem
  calculated : CalculatedSpecs
  mutation : MutationStrategy
  selection : List CandidateFitness → Rng →
    Except SelectionError (List CandidateFitness × Rng)
  crossover : List CandidateFitness → Rng →
    Except CrossoverError (List Candidate × Rng)

/-- Generation loop `for i in 0..ga_specs.max_evolutions` of `run_ga`
(`main.rs`): evaluate fitness; fold the maximum (whose `unwrap` panics
on an empty population); select; crossover; append the offspring to the
population; mutate in place; then either stop when the maximum fitness
reaches the training size with `stop_at_optimum_fitness` set, or
increment the generation counter and continue. -/
def runGaLoop (cfg : GaConfig) :
    Nat → Population → Rng → Except GaError (Population × Rng)
  | 0, pop, rng => .ok (pop, rng)
  | n + 1, pop, rng =>
    match Population.calculate_fitness pop.candidates cfg.data_set with
    | .error e => .error (.fitnessError e)
    | .ok fitness =>
      match maxFitness fitness with
      | none => .error .panicked
      | some m =>
        match cfg.selection fitness rng with
        | .error e => .error (.selectionError e)
        | .ok (selection, rng1) =>
          match cfg.crossover selection rng1 with
          | .error e => .error (.crossoverError e)
          | .ok (offsprings, rng2) =>
            match MutationStrategy.mutate cfg.mutation cfg.calculated
                ⟨pop.generation, Population.appendList pop.candidates offsprings⟩
                rng2 with
            | .error e => .error (.mutationError e)
            | .ok (pop2, rng3) =>
              if m = cfg.data_set.length ∧ cfg.stop_at_optimum_fitness then
                .ok (pop2, rng3)
              else runGaLoop cfg n ⟨pop2.generation + 1, pop2.candidates⟩ rng3

/-- `run_ga` (`main.rs`) from the point the initial population exists:
one `increment_generation` before the loop, then the generation loop. -/
def run_ga (cfg : GaConfig) (pop : Population) (rng : Rng) :
    Except GaError (Population × Rng) :=
  runGaLoop cfg cfg.max_evolutions ⟨pop.generation + 1, pop.candidates⟩ rng

/-- C3, amended.  An end-to-end run over a freshly generated population
(`Population::generate` returns generation counter 1 and a duplicate-free
candidate set) with `max_evolutions = 1` and
`stop_at_optimum_fitness = false`, any selection/crossover configuration
and any mutation strategy, that completes without operator error,
terminates with the generation counter equal to 3 — not 2: `run_ga`
increments once before the loop (1 → 2) and once more at the end of the
single non-stopping iteration — and with the population's size `≥` its
size before the run: appending offspring only adds members
(deduplicated), and mutation replaces each removed member with exactly
one inserted member. -/
theorem c3_run_ga (cfg : GaConfig) (gen : InitialGenerationSpec) (maxIndex : Nat)
    (alphabet : List Char) (rng0 rngA rng1 rng2 : Rng) (pop pop2 : Population)
    (hgen : Population.generate gen maxIndex alphabet rng0 = some (pop, rngA))
    (hme : cfg.max_evolutions = 1) (hstop : cfg.stop_at_optimum_fitness = false)
    (hrun : run_ga cfg pop rng1 = .ok (pop2, rng2)) :
    pop2.generation = 3 ∧ pop.candidates.length ≤ pop2.candidates.length := by
  obtain ⟨hg1, hnd⟩ := Population.generate_spec gen maxIndex alphabet rng0 pop rngA hgen
  rw [run_ga, hme, hg1] at hrun
  rw [runGaLoop] at hrun
  cases hfit : Population.calculate_fitness
      (Population.mk (1 + 1) pop.candidates).candidates cfg.data_set with
  | error e => rw [hfit] at hrun; cases hrun
  | ok fitness =>
    simp only [hfit] at hrun
    cases hmax : maxFitness fitness with
    | none => rw [hmax] at hrun; cases hrun
    | some m =>
      simp only [hmax] at hrun
      cases hsel : cfg.selection fitness rng1 with
      | error e => rw [hsel] at hrun; cases hrun
      | ok selres =>
        obtain ⟨selection, rngS⟩ := selres
        simp only [hsel] at hrun
        cases hcx : cfg.crossover selection rngS with
        | error e => rw [hcx] at hrun; cases hrun
        | ok cxres =>
          obtain ⟨offsprings, rngC⟩ := cxres
          simp only [hcx] at hrun
          cases hmut : MutationStrategy.mutate cfg.mutation cfg.calculated
              ⟨(Population.mk (1 + 1) pop.candidates).generation,
                Population.appendList
                  (Population.mk (1 + 1) pop.candidates).candidates offsprings⟩
              rngC with
          | error e => rw [hmut] at hrun; cases hrun
          | ok mutres =>
            obtain ⟨popM, rngM⟩ := mutres
            simp only [hmut] at hrun
            rw [if_neg (by
              rw [hstop]
              exact fun hand => Bool.false_ne_true hand.2)] at hrun
            rw [runGaLoop] at hrun
            injection hrun with hpair
            injection hpair with hp hr
            obtain ⟨hmlen, hmgen⟩ := MutationStrategy.mutate_preserves cfg.mutation
              cfg.calculated _ rngC popM rngM
              (Population.pairwiseDistinct_appendList pop.candidates offsprings hnd)
              hmut
            constructor
            · rw [← hp]
              simp only at hmgen
              simp [hmgen]
            · rw [← hp]
              simp only at hmlen
              calc pop.candidates.length
                  ≤ (Population.appendList pop.candidates offsprings).length :=
                    Population.length_le_appendList pop.candidates offsprings
                _ = popM.candidates.length := hmlen.symm

/-- Concrete generation spec for the C3 run: two candidates, one rule
each, one constraint each. -/
def genC3 : InitialGenerationSpec := ⟨⟨2, 3, 5⟩, ⟨1, 2, 5⟩, ⟨1, 2, 5⟩⟩

/-- Population produced by `Population::generate` under `genC3` and the
stream `i / 8`: generation 1 with the two distinct one-rule
candidates. -/
def popC3 : Population := ⟨1, [[[(0, '0')]], [[(0, '1')]]]⟩

/-- Concrete configuration for the C3 run: one labeled width-1 example,
roulette selection (`selection_size = 2`, duplicates allowed),
`NextFittest` matchups mated by `SinglePointAtPercentage{50}` with
mirroring `Never`, and a mutation strategy whose overall `chance` is
unset (`unwrap_or_default()` = 0, an immediate successful no-op). -/
def cfgC3 : GaConfig where
  max_evolutions := 1
  stop_at_optimum_fitness := false
  data_set := [⟨['0'], "1"⟩]
  calculated := ⟨['0', '1'], 1⟩
  mutation := ⟨⟨none, none, none, none⟩, .constraintSwap 0⟩
  selection := fun fitness rng => RouletteSelection.select fitness 2 .allow rng
  crossover := fun selection rng =>
    .ok (crossover_single_point_at_percentage 50 .never
      (matchup_next_fittest selection), rng)

/-- C3, counterexample.  The claim says a run over a freshly generated
population with `max_evolutions = 1` and `stop_at_optimum_fitness =
false` ends with the generation counter equal to 2.  Under `genC3` and
the stream `i / 8`, `Population::generate` yields the two-candidate
population `popC3` with counter 1; the `run_ga` embedding then
increments before the loop and again at the end of the single iteration,
ending at counter 3 ≠ 2 (size 2 ≥ 2 as the claim's size part says). -/
theorem c3_counterexample :
    Population.generate genC3 1 ['0', '1'] ⟨fun i => i / 8, 0⟩ =
      some (popC3, ⟨fun i => i / 8, 9⟩) ∧
    (run_ga cfgC3 popC3 ⟨fun _ => 0, 0⟩).toOption.map
      (fun pr => (pr.1.generation, pr.1.candidates.length)) = some (3, 2) ∧
    (3 : Nat) ≠ 2 :=
  ⟨rfl, rfl, by decide⟩

/-- C3 witness: the amended theorem applied to the concrete
configuration, generated population and streams of the counterexample
run. -/
theorem c3_witness :
    cfgC3.max_evolutions = 1 ∧ cfgC3.stop_at_optimum_fitness = false ∧
    ((⟨3, popC3.candidates⟩ : Population).generation = 3 ∧
      popC3.candidates.length ≤
        (⟨3, popC3.candidates⟩ : Population).candidates.length) :=
  ⟨rfl, rfl, c3_run_ga cfgC3 genC3 1 ['0', '1'] ⟨fun i => i / 8, 0⟩
    ⟨fun i => i / 8, 9⟩ ⟨fun _ => 0, 0⟩ ⟨fun _ => 0, 1⟩ popC3
    ⟨3, popC3.candidates⟩ rfl rfl rfl rfl⟩

end Biocomputation
